import Mathlib

/-!
Verification development for the forest-portal-helper documentation
generator.  The Python sources under `src/forest_portal_helper` are
shallowly embedded: pure functions become Lean functions over `List Char`
or `String`, stateful code becomes explicit state passing, machine floats
used as timestamps become `ℚ`, and fallible code returns `Option`.
-/

namespace FPH

/-! ## Character classes (Python `re`, ASCII range)

`[A-Za-z0-9]`, `\w` (= alphanumerics plus underscore) and the JWT
character class `[A-Za-z0-9_\-]` from `core/text_utils.py`. -/

def isAlnum (c : Char) : Bool :=
  ('A' ≤ c ∧ c ≤ 'Z') ∨ ('a' ≤ c ∧ c ≤ 'z') ∨ ('0' ≤ c ∧ c ≤ '9')

def isWordChar (c : Char) : Bool :=
  isAlnum c ∨ c = '_'

def isJwtC (c : Char) : Bool :=
  isAlnum c ∨ c = '_' ∨ c = '-'

/-- `\b` immediately before a word character: the previous character must be
absent (start of string) or a non-word character. -/
def boundaryOK (prev : Option Char) : Bool :=
  match prev with
  | none => true
  | some d => !(isWordChar d)

/-- `\b` immediately after a word character: the next character must be
absent (end of string) or a non-word character. -/
def wordBreakAfter (ys : List Char) : Bool :=
  match ys.head? with
  | none => true
  | some d => !(isWordChar d)

/-! ## The three secret patterns of `_SECRET_PATTERNS`

A matcher takes the previous character (for `\b`) and the text from the
current position, returning `some n` when the pattern matches a prefix of
length `n` (Python `re` leftmost semantics: the scanner below tries every
position left to right). -/

/-- Matcher for `\b<lits>[A-Za-z0-9]{20,}\b` (the `gsk_` / `sk-` shapes).
The greedy run is the maximal alphanumeric run; backtracking cannot help
because every shorter cut is followed by a word character. -/
def matchKey (lits : List Char) (prev : Option Char) (xs : List Char) : Option Nat :=
  if boundaryOK prev ∧ lits <+: xs then
    let rest := xs.drop lits.length
    let run := rest.takeWhile isAlnum
    if 20 ≤ run.length ∧ wordBreakAfter (rest.drop run.length) then
      some (lits.length + run.length)
    else none
  else none

def matchP1 : Option Char → List Char → Option Nat := matchKey ['g', 's', 'k', '_']

def matchP2 : Option Char → List Char → Option Nat := matchKey ['s', 'k', '-']

/-- Strip trailing hyphens: Python's backtracking on the final `\b` of the
JWT pattern drops exactly the trailing `-` characters of the greedy third
segment (a `-` is a non-word character, so `\b` fails after it unless a
word character follows, which the maximal run excludes). -/
def stripTrailingHyphens (l : List Char) : List Char :=
  (l.reverse.dropWhile (fun c => c = '-')).reverse

/-- Matcher for `\beyJ[A-Za-z0-9_\-]+\.[A-Za-z0-9_\-]+\.[A-Za-z0-9_\-]+\b`. -/
def matchP3 (prev : Option Char) (xs : List Char) : Option Nat :=
  if boundaryOK prev ∧ ['e', 'y', 'J'] <+: xs then
    let r0 := xs.drop 3
    let r1 := r0.takeWhile isJwtC
    let s1 := r0.drop r1.length
    if r1.length ≠ 0 ∧ s1.head? = some '.' then
      let r2 := (s1.drop 1).takeWhile isJwtC
      let s2 := (s1.drop 1).drop r2.length
      if r2.length ≠ 0 ∧ s2.head? = some '.' then
        let r3 := (s2.drop 1).takeWhile isJwtC
        let r3' := stripTrailingHyphens r3
        if r3'.length ≠ 0 then
          some (3 + r1.length + 1 + r2.length + 1 + r3'.length)
        else none
      else none
    else none
  else none

/-- The sentinel `<REDACTED_SECRET>` substituted for every match. -/
def SENT : List Char :=
  ['<', 'R', 'E', 'D', 'A', 'C', 'T', 'E', 'D', '_', 'S', 'E', 'C', 'R', 'E', 'T', '>']

/-- A matcher: `Matcher`s are the three `matchP*` functions. -/
abbrev Matcher := Option Char → List Char → Option Nat

/-- Every successful match consumes at least one character. -/
def MatcherPos (m : Matcher) : Prop :=
  ∀ prev xs n, m prev xs = some n → 0 < n

theorem matchKey_pos (lits : List Char) (hl : lits ≠ []) : MatcherPos (matchKey lits) := by
  intro prev xs n h
  unfold matchKey at h
  split at h
  · dsimp only at h
    split at h
    · cases h
      have : 0 < lits.length := List.length_pos.mpr hl
      omega
    · exact absurd h (by simp)
  · exact absurd h (by simp)

theorem matchP1_pos : MatcherPos matchP1 := matchKey_pos _ (by simp)

theorem matchP2_pos : MatcherPos matchP2 := matchKey_pos _ (by simp)

theorem matchP3_pos : MatcherPos matchP3 := by
  intro prev xs n h
  unfold matchP3 at h
  split at h
  · dsimp only at h
    split at h
    · split at h
      · split at h
        · cases h; omega
        · exact absurd h (by simp)
      · exact absurd h (by simp)
    · exact absurd h (by simp)
  · exact absurd h (by simp)

/-- One `pattern.sub` pass of Python `re.sub`: scan left to right, replace
every non-overlapping match with the sentinel, and resume immediately
after the matched text (the `prev` context for `\b` stays the last
character of the original matched text). -/
def subPat (m : Matcher) (hm : MatcherPos m) (prev : Option Char) (xs : List Char) :
    List Char :=
  match hxs : xs with
  | [] => []
  | c :: rest =>
    match hmm : m prev (c :: rest) with
    | some n =>
      SENT ++ subPat m hm (((c :: rest).take n).getLast?) ((c :: rest).drop n)
    | none => c :: subPat m hm (some c) rest
termination_by xs.length
decreasing_by
  · simp only [List.length_drop, List.length_cons]
    have := hm prev (c :: rest) n hmm
    omega
  · simp

/-- `hasMatch m prev xs = true` iff the pattern matches at some position of
`xs`, with the true in-string `\b` context at that position. -/
def hasMatch (m : Matcher) (prev : Option Char) (xs : List Char) : Bool :=
  match xs with
  | [] => false
  | c :: rest => (m prev (c :: rest)).isSome || hasMatch m (some c) rest

/-- `re.sub` for the first pattern (`gsk_` keys). -/
def sub1 (xs : List Char) : List Char := subPat matchP1 matchP1_pos none xs

/-- `re.sub` for the second pattern (`sk-` keys). -/
def sub2 (xs : List Char) : List Char := subPat matchP2 matchP2_pos none xs

/-- `re.sub` for the third pattern (JWT-shaped tokens). -/
def sub3 (xs : List Char) : List Char := subPat matchP3 matchP3_pos none xs

/-- `text_utils.redact_secrets` on character lists: the three substitutions
applied in the order of `_SECRET_PATTERNS`. -/
def redactList (xs : List Char) : List Char := sub3 (sub2 (sub1 xs))

/-- `text_utils.redact_secrets`. -/
def redact_secrets (text : String) : String := ⟨redactList text.data⟩

/-! ## SHA-256 (`text_utils.sha256_text`)

`hashlib.sha256(text.encode("utf-8", errors="ignore")).hexdigest()`, over
bytes as `Nat` values below 256, 32-bit words as `Nat` reduced mod `2^32`.
(`errors="ignore"` drops invalid sequences; a Lean `Char` is always a
valid scalar value, so encoding never fails in the model.) -/

def utf8Bytes1 (c : Char) : List Nat :=
  let n := c.toNat
  if n < 0x80 then [n]
  else if n < 0x800 then [0xC0 + n / 64, 0x80 + n % 64]
  else if n < 0x10000 then [0xE0 + n / 4096, 0x80 + (n / 64) % 64, 0x80 + n % 64]
  else [0xF0 + n / 262144, 0x80 + (n / 4096) % 64, 0x80 + (n / 64) % 64, 0x80 + n % 64]

def utf8Bytes (s : String) : List Nat := s.data.flatMap utf8Bytes1

def w32 (n : Nat) : Nat := n % 4294967296

def rotr32 (k x : Nat) : Nat := w32 (x / 2 ^ k + x * 2 ^ (32 - k))

def shr32 (k x : Nat) : Nat := x / 2 ^ k

def xor32 (a b : Nat) : Nat := Nat.xor a b

def sigma0 (x : Nat) : Nat := xor32 (xor32 (rotr32 7 x) (rotr32 18 x)) (shr32 3 x)

def sigma1 (x : Nat) : Nat := xor32 (xor32 (rotr32 17 x) (rotr32 19 x)) (shr32 10 x)

def bigSigma0 (x : Nat) : Nat := xor32 (xor32 (rotr32 2 x) (rotr32 13 x)) (rotr32 22 x)

def bigSigma1 (x : Nat) : Nat := xor32 (xor32 (rotr32 6 x) (rotr32 11 x)) (rotr32 25 x)

def chWord (x y z : Nat) : Nat := xor32 (Nat.land x y) (Nat.land (2 ^ 32 - 1 - x) z)

def majWord (x y z : Nat) : Nat :=
  xor32 (xor32 (Nat.land x y) (Nat.land x z)) (Nat.land y z)

def sha256K : List Nat :=
  [1116352408, 1899447441, 3049323471, 3921009573, 961987163, 1508970993,
   2453635748, 2870763221, 3624381080, 310598401, 607225278, 1426881987,
   1925078388, 2162078206, 2614888103, 3248222580, 3835390401, 4022224774,
   264347078, 604807628, 770255983, 1249150122, 1555081692, 1996064986,
   2554220882, 2821834349, 2952996808, 3210313671, 3336571891, 3584528711,
   113926993, 338241895, 666307205, 773529912, 1294757372, 1396182291,
   1695183700, 1986661051, 2177026350, 2456956037, 2730485921, 2820302411,
   3259730800, 3345764771, 3516065817, 3600352804, 4094571909, 275423344,
   430227734, 506948616, 659060556, 883997877, 958139571, 1322822218,
   1537002063, 1747873779, 1955562222, 2024104815, 2227730452, 2361852424,
   2428436474, 2756734187, 3204031479, 3329325298]

def sha256H0 : List Nat :=
  [1779033703, 3144134277, 1013904242, 2773480762,
   1359893119, 2600822924, 528734635, 1541459225]

/-- Big-endian bytes of `n`, `k` bytes wide. -/
def beBytes : Nat → Nat → List Nat
  | 0, _ => []
  | k + 1, n => beBytes k (n / 256) ++ [n % 256]

/-- SHA-256 padding: `0x80`, zeros, then the bit length as 8 big-endian
bytes, to a multiple of 64 bytes. -/
def sha256Pad (msg : List Nat) : List Nat :=
  let len := msg.length
  let padZeros := (119 - len % 64) % 64
  msg ++ [0x80] ++ List.replicate padZeros 0 ++ beBytes 8 (len * 8)

def bytesToWords : List Nat → List Nat
  | a :: b :: c :: d :: rest => (a * 16777216 + b * 65536 + c * 256 + d) :: bytesToWords rest
  | _ => []

/-- Extend 16 schedule words to 64. -/
def sha256Extend (ws : List Nat) : Nat → List Nat
  | 0 => ws
  | k + 1 =>
    let i := ws.length
    let nw := w32 (sigma1 (ws.getD (i - 2) 0) + ws.getD (i - 7) 0 +
      sigma0 (ws.getD (i - 15) 0) + ws.getD (i - 16) 0)
    sha256Extend (ws ++ [nw]) k

def sha256Round (st : List Nat) (kw : Nat × Nat) : List Nat :=
  match st with
  | [a, b, c, d, e, f, g, h] =>
    let t1 := w32 (h + bigSigma1 e + chWord e f g + kw.1 + kw.2)
    let t2 := w32 (bigSigma0 a + majWord a b c)
    [w32 (t1 + t2), a, b, c, w32 (d + t1), e, f, g]
  | st => st

def sha256Compress (h : List Nat) (blockWords : List Nat) : List Nat :=
  let ws := sha256Extend blockWords 48
  let st := (sha256K.zip ws).foldl (fun s kw => sha256Round s (kw.1, kw.2)) h
  (h.zip st).map (fun p => w32 (p.1 + p.2))

def sha256Blocks (h : List Nat) (bytes : List Nat) : List Nat :=
  match bytes with
  | [] => h
  | b :: rest =>
    sha256Blocks (sha256Compress h (bytesToWords ((b :: rest).take 64)))
      ((b :: rest).drop 64)
termination_by bytes.length
decreasing_by
  simp only [List.length_drop, List.length_cons]
  omega

def hexDigit (n : Nat) : Char :=
  if n < 10 then Char.ofNat (48 + n) else Char.ofNat (87 + n)

def hexWord32 (n : Nat) : List Char :=
  [hexDigit (n / 2 ^ 28 % 16), hexDigit (n / 2 ^ 24 % 16), hexDigit (n / 2 ^ 20 % 16),
   hexDigit (n / 2 ^ 16 % 16), hexDigit (n / 2 ^ 12 % 16), hexDigit (n / 2 ^ 8 % 16),
   hexDigit (n / 2 ^ 4 % 16), hexDigit (n % 16)]

def sha256Hex (bytes : List Nat) : String :=
  ⟨(sha256Blocks sha256H0 (sha256Pad bytes)).flatMap hexWord32⟩

/-- `text_utils.sha256_text`. -/
def sha256_text (text : String) : String := sha256Hex (utf8Bytes text)

/-! ## Chunker (`core/chunking.py`) -/

/-- Python line-break characters used by `str.splitlines`:
LF CR VT FF FS GS RS NEL LS PS. -/
def isLineBreak (c : Char) : Bool :=
  c.toNat = 10 ∨ c.toNat = 13 ∨ c.toNat = 11 ∨ c.toNat = 12 ∨ c.toNat = 28 ∨
  c.toNat = 29 ∨ c.toNat = 30 ∨ c.toNat = 133 ∨ c.toNat = 8232 ∨ c.toNat = 8233

/-- `str.splitlines(True)`: split at line boundaries, keeping terminators;
`"\r\n"` counts as a single terminator. -/
def splitLinesKeepEnds : List Char → List (List Char)
  | [] => []
  | c :: rest =>
    if c = '\r' then
      match rest with
      | [] => [['\r']]
      | d :: rest2 =>
        if d = '\n' then ['\r', '\n'] :: splitLinesKeepEnds rest2
        else ['\r'] :: splitLinesKeepEnds (d :: rest2)
    else if isLineBreak c then [c] :: splitLinesKeepEnds rest
    else
      match splitLinesKeepEnds rest with
      | [] => [[c]]
      | l :: ls => (c :: l) :: ls

/-- The tail kept between chunks: `cur[-overlap_lines:] if len(cur) >=
overlap_lines else cur` when `overlap_lines > 0`, else empty. -/
def overlapTail (overlap : Nat) (cur : List (List Char)) : List (List Char) :=
  if 0 < overlap then
    if overlap ≤ cur.length then cur.drop (cur.length - overlap) else cur
  else []

def joinChunk (cur : List (List Char)) : List Char := cur.flatten

/-- The `for line in lines` loop of `chunk_text_by_lines`, carrying the
current chunk and its character count. -/
def chunkLoop (maxChars overlap : Nat) (cur : List (List Char)) (curLen : Nat) :
    List (List Char) → List (List Char)
  | [] => if cur = [] then [] else [joinChunk cur]
  | line :: rest =>
    if cur ≠ [] ∧ maxChars < curLen + line.length then
      joinChunk cur ::
        chunkLoop maxChars overlap (overlapTail overlap cur ++ [line])
          ((((overlapTail overlap cur).map List.length).sum) + line.length) rest
    else
      chunkLoop maxChars overlap (cur ++ [line]) (curLen + line.length) rest

/-- `chunking.chunk_text_by_lines` on character lists. -/
def chunk_text_by_lines (text : List Char) (maxChars overlap : Nat) :
    List (List Char) :=
  if text.length ≤ maxChars then [text]
  else chunkLoop maxChars overlap [] 0 (splitLinesKeepEnds text)

/-! ## String helpers (Python `in`, `.lower()`, `.strip()`), ASCII range -/

/-- Python `needle in hay` on substrings. -/
def containsSub (needle : List Char) : List Char → Bool
  | [] => needle.isEmpty
  | c :: t => needle.isPrefixOf (c :: t) || containsSub needle t

def strContains (hay needle : String) : Bool := containsSub needle.data hay.data

def isPySpace (c : Char) : Bool :=
  c = ' ' ∨ c = '\t' ∨ c = '\n' ∨ c = '\r' ∨ c.toNat = 11 ∨ c.toNat = 12

/-- Python `str.strip()` (no argument): trim whitespace on both ends. -/
def pyStrip (s : String) : String :=
  ⟨((s.data.dropWhile isPySpace).reverse.dropWhile isPySpace).reverse⟩

/-- Python `str.lower()` (ASCII range). -/
def pyLower (s : String) : String := ⟨s.data.map Char.toLower⟩

/-! ## Backend client (`llm/groq_client.py`)

The wire transport is out of scope; `GroqClient.chat`'s request-field
assembly (which fields get transmitted) is embedded below. -/

structure GroqParams where
  temperature : ℚ
  top_p : ℚ
  max_completion_tokens : Nat
  stream : Bool
  service_tier : Option String
  reasoning_effort : Option String
deriving Repr, DecidableEq

/-- `groq_client._effective_reasoning_effort`. -/
def _effective_reasoning_effort (model : String) (requested : Option String) :
    Option String :=
  match requested with
  | none => none
  | some r =>
    if r = "" then none
    else
      let m := pyStrip model
      if m = "openai/gpt-oss-20b" ∨ m = "openai/gpt-oss-120b" then
        if r = "low" ∨ r = "medium" ∨ r = "high" then some r
        else if r = "default" then some "medium"
        else none
      else if m = "qwen/qwen3-32b" then
        if r = "none" ∨ r = "default" then some r
        else if r = "low" ∨ r = "medium" ∨ r = "high" then some "default"
        else none
      else none

/-- The `service_tier` entry of the kwargs built by `GroqClient.chat`:
present exactly when `params.service_tier` is truthy. -/
def chatServiceTierField (params : GroqParams) : Option String :=
  match params.service_tier with
  | none => none
  | some v => if v = "" then none else some v

/-- The `reasoning_effort` entry of the kwargs built by `GroqClient.chat`. -/
def chatReasoningField (model : String) (params : GroqParams) : Option String :=
  match _effective_reasoning_effort model params.reasoning_effort with
  | none => none
  | some v => if v = "" then none else some v

/-- `docgen.generate_docs`'s normalization of the configured service tier
(`service_tier_val`): `None` when blank or (case-insensitively) `on_demand`. -/
def docgenServiceTier (cfgTier : Option String) : Option String :=
  let st := pyStrip (cfgTier.getD "")
  if pyLower st = "" ∨ pyLower st = "on_demand" then none else some st

/-! ## Model router (`llm/router.py`)

The backend is an oracle `String → Nat → ChatResult` giving the outcome of
calling each model at each (1-based) attempt; sleeps and the rate limiter
do not influence control flow inside `generate` and are dropped here. -/

/-- Outcome of one backend chat call as the router's `except` arms see it. -/
inductive ChatResult where
  | success (txt : String) (headers : List (String × String))
  | rateLimitErr (headers : List (String × String))
  | statusErr (status : Option Nat) (etype : String) (emsg : String)
  | otherErr (msg : String)
deriving Repr, DecidableEq

structure RoutingPolicy where
  preferred_models : List String
  max_attempts_per_model : Nat
  backoff_base_s : ℚ
  backoff_max_s : ℚ
deriving Repr, DecidableEq

/-- Run-scoped router state plus a trace of backend invocations:
`(model, attempt, transmitted service-tier field)` per call. -/
structure RouterSt where
  forcedServiceTier : Option String
  disabledModels : List String
  lastErr : Option ChatResult
  calls : List (String × Nat × Option String)
deriving Repr, DecidableEq

def emptyRouterSt : RouterSt := ⟨none, [], none, []⟩

/-- `eff_params`: substitute the forced service tier when truthy. -/
def effParams (base : GroqParams) (forced : Option String) : GroqParams :=
  match forced with
  | some t => if t = "" then base else { base with service_tier := some t }
  | none => base

/-- `status and int(status) >= 500`. -/
def is5xx (status : Option Nat) : Bool :=
  match status with
  | some n => n ≠ 0 ∧ 500 ≤ n
  | none => false

/-- `status and int(status) in {400, 404, 422}`. -/
def isStructural4xx (status : Option Nat) : Bool :=
  status = some 400 ∨ status = some 404 ∨ status = some 422

/-- The `for attempt in range(1, max_attempts+1)` loop of
`ModelRouter.generate`, for one model.  Returns `some txt` on success,
`none` when the loop breaks or exhausts its attempts. -/
def tryModel (oracle : String → Nat → ChatResult) (params : GroqParams)
    (model : String) : Nat → Nat → RouterSt → Option String × RouterSt
  | 0, _, st => (none, st)
  | fuel + 1, attempt, st =>
    let ep := effParams params st.forcedServiceTier
    let res := oracle model attempt
    let st := { st with calls := st.calls ++ [(model, attempt, chatServiceTierField ep)] }
    match res with
    | .success txt _ => (some txt, st)
    | .rateLimitErr _ =>
      tryModel oracle params model fuel (attempt + 1) { st with lastErr := some res }
    | .statusErr status _ emsg =>
      let st := { st with lastErr := some res }
      if status = some 429 then
        tryModel oracle params model fuel (attempt + 1) st
      else if status = some 400 ∧ strContains emsg "service_tier" ∧
          strContains emsg "not available for this org" then
        tryModel oracle params model fuel (attempt + 1)
          { st with forcedServiceTier := some "on_demand" }
      else if status = some 498 ∧ strContains (pyLower emsg) "capacity_exceeded" then
        tryModel oracle params model fuel (attempt + 1)
          { st with forcedServiceTier := some "on_demand" }
      else if is5xx status then
        tryModel oracle params model fuel (attempt + 1) st
      else if isStructural4xx status then
        (none, { st with disabledModels := st.disabledModels ++ [model] })
      else (none, st)
    | .otherErr _ => (none, { st with lastErr := some res })

inductive GenResult where
  | ok (txt : String) (model : String)
  | failure (lastErr : Option ChatResult)
deriving Repr, DecidableEq

/-- `ModelRouter.generate`: iterate the models in order, skipping disabled
ones; after exhausting all models, fail with the last observed error. -/
def generateGo (oracle : String → Nat → ChatResult) (params : GroqParams)
    (maxA : Nat) : List String → RouterSt → GenResult × RouterSt
  | [], st => (.failure st.lastErr, st)
  | m :: rest, st =>
    if m ∈ st.disabledModels then generateGo oracle params maxA rest st
    else
      match tryModel oracle params m maxA 1 st with
      | (some txt, st') => (.ok txt m, st')
      | (none, st') => generateGo oracle params maxA rest st'

/-! ## Rate limiter (`llm/rate_limiter.py`)

Monotonic timestamps become exact rationals; the jitter drawn from
`random.random()` becomes an explicit event parameter constrained to the
interval the code draws from. -/

def digitsToNat (l : List Char) : Nat :=
  l.foldl (fun a c => a * 10 + (c.toNat - 48)) 0

/-- Parse `\d+(\.\d+)?` at the front; returns the value and the rest.
When the fractional group cannot match, it is skipped (regex optionality). -/
def parseRegexDec (v : List Char) : Option (ℚ × List Char) :=
  let intp := v.takeWhile Char.isDigit
  if intp = [] then none
  else
    let r1 := v.drop intp.length
    match r1 with
    | '.' :: fr =>
      let frd := fr.takeWhile Char.isDigit
      if frd = [] then some ((digitsToNat intp : ℚ), r1)
      else some ((digitsToNat intp : ℚ) + (digitsToNat frd : ℚ) / 10 ^ frd.length,
        fr.drop frd.length)
    | _ => some ((digitsToNat intp : ℚ), r1)

/-- One optional component `(?:(\d+(\.\d+)?)<unit>)?` of `_DURATION_RE`. -/
def parseComp (unit : Char) (v : List Char) : Option ℚ × List Char :=
  match parseRegexDec v with
  | some (q, rest) =>
    match rest with
    | u :: rest2 => if u = unit then (some q, rest2) else (none, v)
    | [] => (none, v)
  | none => (none, v)

/-- `_DURATION_RE.fullmatch`: `(h)?(m)?(s)?` with decimal components. -/
def parseDurationMatch (v : List Char) : Option ℚ :=
  let hp := parseComp 'h' v
  let mp := parseComp 'm' hp.2
  let sp := parseComp 's' mp.2
  if sp.2 = [] then
    some ((hp.1.getD 0) * 3600 + (mp.1.getD 0) * 60 + sp.1.getD 0)
  else none

/-- Python `float(v)` on plain decimal strings (the fallback path). -/
def parseFloatPy (v : List Char) : Option ℚ :=
  let core : List Char → Option ℚ := fun w =>
    let intp := w.takeWhile Char.isDigit
    let rest := w.drop intp.length
    match rest with
    | [] => if intp = [] then none else some (digitsToNat intp : ℚ)
    | '.' :: fr =>
      let frd := fr.takeWhile Char.isDigit
      if fr.drop frd.length ≠ [] then none
      else if intp = [] ∧ frd = [] then none
      else some ((digitsToNat intp : ℚ) + (digitsToNat frd : ℚ) / 10 ^ frd.length)
    | _ => none
  match v with
  | '-' :: r => (core r).map Neg.neg
  | '+' :: r => core r
  | _ => core v

/-- `rate_limiter.parse_duration_seconds`. -/
def parse_duration_seconds (value : Option String) : Option ℚ :=
  match value with
  | none => none
  | some v0 =>
    if v0 = "" then none
    else
      let v := pyLower (pyStrip v0)
      match parseDurationMatch v.data with
      | some out => if 0 < out then some out else none
      | none => parseFloatPy v.data

/-- `rate_limiter.header_get`: case-insensitive lookup. -/
def header_get (headers : List (String × String)) (key : String) : Option String :=
  (headers.find? (fun kv => pyLower kv.1 = pyLower key)).map Prod.snd

structure ThrottleConfig where
  enabled : Bool
  min_interval_seconds : ℚ
  min_remaining_tokens : Int
deriving Repr, DecidableEq

structure LState where
  nextAllowed : ℚ
  blockedUntil : ℚ
deriving Repr, DecidableEq

/-- The wait `on_rate_limited` derives from the headers:
`max(retry-after, x-ratelimit-reset-tokens)`, defaulting to 3 seconds. -/
def rlWaitSeconds (headers : List (String × String)) : ℚ :=
  let ra_s := parse_duration_seconds (header_get headers "retry-after")
  let reset_s := parse_duration_seconds (header_get headers "x-ratelimit-reset-tokens")
  let w1 : ℚ := 0
  let w2 := match ra_s with
    | some x => if x = 0 then w1 else max w1 x
    | none => w1
  let w3 := match reset_s with
    | some x => if x = 0 then w2 else max w2 x
    | none => w2
  if w3 ≤ 0 then 3 else w3

/-- `int(float(remaining)) if remaining else None`, `None` on parse error. -/
def parseRemainingTokens (remaining : Option String) : Option Int :=
  match remaining with
  | none => none
  | some r =>
    if r = "" then none
    else
      match parseFloatPy (pyStrip r).data with
      | some q => some (q.num / (q.den : Int))
      | none => none

/-- The reset wait `on_success_headers` applies when the remaining-token
threshold is hit, `none` when it leaves the state alone. -/
def successBlockDelta (cfg : ThrottleConfig) (headers : List (String × String)) :
    Option ℚ :=
  let remaining_i := parseRemainingTokens (header_get headers "x-ratelimit-remaining-tokens")
  let reset_s := parse_duration_seconds (header_get headers "x-ratelimit-reset-tokens")
  match remaining_i, reset_s with
  | some ri, some rs => if ri ≤ cfg.min_remaining_tokens then some rs else none
  | _, _ => none

/-- Timestamped limiter events: a successful return of `wait_for_slot`
(valid only when its guard held at that instant), an `on_rate_limited`
observation, an `on_success_headers` observation.  Jitter bounds are the
intervals the code draws from. -/
inductive LEvent where
  | acq (now : ℚ)
  | rateLimited (now : ℚ) (headers : List (String × String)) (jitter : ℚ)
  | successHeaders (now : ℚ) (headers : List (String × String)) (jitter : ℚ)
deriving Repr, DecidableEq

def LEvent.isAcq : LEvent → Bool
  | .acq _ => true
  | _ => false

/-- One limiter transition; `none` when the event is not a valid step
(an `acq` whose guard did not hold, or an out-of-range jitter). -/
def lstep (cfg : ThrottleConfig) (st : LState) : LEvent → Option LState
  | .acq now =>
    if cfg.enabled then
      if max st.nextAllowed st.blockedUntil ≤ now then
        some { st with nextAllowed := now + cfg.min_interval_seconds }
      else none
    else some st
  | .rateLimited now headers jitter =>
    if 3/10 ≤ jitter ∧ jitter < 1 then
      if cfg.enabled then
        some { st with blockedUntil := max st.blockedUntil (now + rlWaitSeconds headers + jitter) }
      else some st
    else none
  | .successHeaders now headers jitter =>
    if 1/5 ≤ jitter ∧ jitter < 1/2 then
      if cfg.enabled then
        match successBlockDelta cfg headers with
        | some rs => some { st with blockedUntil := max st.blockedUntil (now + rs + jitter) }
        | none => some st
      else some st
    else none

def runEvents (cfg : ThrottleConfig) : LState → List LEvent → Option LState
  | st, [] => some st
  | st, e :: rest =>
    match lstep cfg st e with
    | some st' => runEvents cfg st' rest
    | none => none

/-! ## Prompt assembly (`core/prompting.py`)

Paths are modeled as posix-form strings (`Path.as_posix`). -/

def mdLinkLine (p : String × String) : String :=
  "- " ++ p.1 ++ " -> [" ++ p.2 ++ "](" ++ p.2 ++ ")"

/-- `prompting._md_links`. -/
def mdLinks (links : List (String × String)) : String :=
  let lines := links.map mdLinkLine
  if lines = [] then "- (nenhum)" else String.intercalate "\n" lines

structure PromptContext where
  rel_path : String
  file_kind : String
  code_fence : String
  code : String
  imports_links : List (String × String)
  imported_by_links : List (String × String)
deriving Repr, DecidableEq

structure ChatMessage where
  role : String
  content : String
deriving Repr, DecidableEq

/-- Python `str.format` restricted to plain named fields (`{{`/`}}`
escapes, `{name}` substitution); `none` on a malformed template or an
unknown field name.  Structural recursion on a fuel that bounds the
remaining length (each step consumes at least one character). -/
def pyFormatF (lookup : String → Option String) : Nat → List Char → Option (List Char)
  | _, [] => some []
  | 0, _ :: _ => none
  | f + 1, '{' :: '{' :: rest => (pyFormatF lookup f rest).map (fun t => '{' :: t)
  | f + 1, '}' :: '}' :: rest => (pyFormatF lookup f rest).map (fun t => '}' :: t)
  | f + 1, '{' :: rest =>
    let name := rest.takeWhile (fun c => c ≠ '}' ∧ c ≠ '{')
    match rest.drop name.length with
    | '}' :: rest2 =>
      match lookup ⟨name⟩ with
      | some v => (pyFormatF lookup f rest2).map (fun t => v.data ++ t)
      | none => none
    | _ => none
  | _ + 1, '}' :: _ => none
  | f + 1, c :: rest => (pyFormatF lookup f rest).map (fun t => c :: t)

def pyFormat (lookup : String → Option String) (l : List Char) : Option (List Char) :=
  pyFormatF lookup l.length l

/-- The named-placeholder environment `render_messages` passes to
`template.format`. -/
def renderLookup (ctx : PromptContext) (language tone : String)
    (snippet_max_lines_per_block max_snippet_blocks : Nat) :
    String → Option String := fun k =>
  if k = "language" then some language
  else if k = "tone" then some tone
  else if k = "rel_path" then some ctx.rel_path
  else if k = "file_kind" then some ctx.file_kind
  else if k = "imports_md" then some (mdLinks ctx.imports_links)
  else if k = "imported_by_md" then some (mdLinks ctx.imported_by_links)
  else if k = "max_snippet_blocks" then some (toString max_snippet_blocks)
  else if k = "snippet_max_lines_per_block" then some (toString snippet_max_lines_per_block)
  else if k = "code_fence" then some ctx.code_fence
  else if k = "code" then some ctx.code
  else none

/-- `prompting.render_messages`: format the template and wrap it in a
single user-role message. -/
def render_messages (template : String) (ctx : PromptContext) (language tone : String)
    (snippet_max_lines_per_block max_snippet_blocks : Nat) : Option (List ChatMessage) :=
  (pyFormat (renderLookup ctx language tone snippet_max_lines_per_block max_snippet_blocks)
    template.data).map (fun u => [⟨"user", ⟨u⟩⟩])

/-! ## Per-file pipeline (`docgen.generate_docs.process_one`)

File reads and writes are abstracted to values (`content`, `outExists`);
prompt contents do not influence the backend oracle, so only the calls
themselves are traced. -/

inductive POut where
  | skipped
  | wrote (doc : String) (model : String)
  | failed (lastErr : Option ChatResult)
deriving Repr, DecidableEq

/-- The `for i, chunk in enumerate(chunks)` loop: one router call per
chunk, collecting `(doc_txt.strip(), used_model)`; abort on failure. -/
def processChunks (oracle : String → Nat → ChatResult) (params : GroqParams)
    (maxA : Nat) (models : List String) :
    List (List Char) → RouterSt → Option (List (String × String)) × RouterSt
  | [], st => (some [], st)
  | _ :: rest, st =>
    match generateGo oracle params maxA models st with
    | (.ok txt m, st') =>
      match processChunks oracle params maxA models rest st' with
      | (some l, st'') => (some ((pyStrip txt, m) :: l), st'')
      | (none, st'') => (none, st'')
    | (.failure _, st') => (none, st')

/-- `process_one` for one work item: redact, hash, consult the manifest
and the output file, then chunk / generate / merge. -/
def processOne (force : Bool) (manifestSha : Option String) (content : String)
    (outExists : Bool) (maxChars overlap : Nat)
    (oracle : String → Nat → ChatResult) (params : GroqParams) (maxA : Nat)
    (models : List String) (st : RouterSt) : POut × RouterSt :=
  let raw := redact_secrets content
  let sha := sha256_text raw
  if force = false ∧ manifestSha = some sha ∧ outExists then (.skipped, st)
  else
    match processChunks oracle params maxA models
        (chunk_text_by_lines raw.data maxChars overlap) st with
    | (some partials, st') =>
      match partials with
      | [] => (.failed none, st')
      | (d0, m0) :: restP =>
        if restP = [] then (.wrote (pyStrip d0 ++ "\n") m0, st')
        else
          match generateGo oracle params maxA models st' with
          | (.ok txt m, st'') => (.wrote (pyStrip txt ++ "\n") m, st'')
          | (.failure e, st'') => (.failed e, st'')
    | (none, st') =>
      (.failed st'.lastErr, st')

/-! ## Theorems -/

/-- The reasoning-effort table as the spec states it, for comparison with
`_effective_reasoning_effort` (refinement): per family, pass-through and
remapped values; otherwise omit. -/
def reasoningEffortSpec (model : String) (requested : Option String) : Option String :=
  match requested with
  | none => none
  | some r =>
    if pyStrip model = "openai/gpt-oss-20b" ∨ pyStrip model = "openai/gpt-oss-120b" then
      if r = "low" ∨ r = "medium" ∨ r = "high" then some r
      else if r = "default" then some "medium"
      else none
    else if pyStrip model = "qwen/qwen3-32b" then
      if r = "none" ∨ r = "default" then some r
      else if r = "low" ∨ r = "medium" ∨ r = "high" then some "default"
      else none
    else none

theorem eff_reasoning_ne_empty (model : String) (r : Option String) :
    _effective_reasoning_effort model r ≠ some "" := by
  cases r with
  | none => simp [_effective_reasoning_effort]
  | some v =>
    unfold _effective_reasoning_effort
    dsimp only
    split_ifs with h1 h2 h3 h4 h5 h6 h7 <;> simp_all <;>
      rcases ‹_ ∨ _› with h | h <;> simp_all

/-- C8.  Reasoning-effort normalization is the pure per-family table the
claim describes (`low/medium/high` pass-through and `default → medium` for
the gpt-oss family, `none/default` pass-through and `low/medium/high →
default` for qwen3-32b, omitted otherwise), and the transmitted
`reasoning_effort` request field is exactly that normalized value. -/
theorem claim_C8_reasoning_effort_table :
    (∀ model requested,
      _effective_reasoning_effort model requested = reasoningEffortSpec model requested) ∧
    (∀ model params, chatReasoningField model params =
      _effective_reasoning_effort model params.reasoning_effort) := by
  constructor
  · intro model requested
    cases requested with
    | none => rfl
    | some r =>
      unfold _effective_reasoning_effort reasoningEffortSpec
      dsimp only
      by_cases h0 : r = ""
      · subst h0
        split_ifs <;> simp_all
      · simp only [h0, if_false]
  · intro model params
    unfold chatReasoningField
    cases he : _effective_reasoning_effort model params.reasoning_effort with
    | none => rfl
    | some v =>
      have hne : v ≠ "" := by
        intro hv
        exact eff_reasoning_ne_empty model params.reasoning_effort (hv ▸ he)
      simp [hne]

/-- C9 counterexample.  With no edges, `_md_links` emits the literal
`"- (nenhum)"`, not the `"(none)"` placeholder the claim asserts. -/
theorem claim_C9_counterexample :
    mdLinks [] = "- (nenhum)" ∧ mdLinks [] ≠ "(none)" ∧
    containsSub "(none)".data (mdLinks []).data = false := by
  refine ⟨rfl, by decide, by decide⟩

/-- C9 as amended.  The `imports_md` / `imported_by_md` blocks are bullet
lists of `- SRC -> [DOC](DOC)` entries (posix path form); with no edges
the literal placeholder is `"- (nenhum)"` (not `"(none)"`); the rendered
prompt binds those blocks for the imports and imported-by links and is a
single user-role message. -/
theorem claim_C9_amended :
    (mdLinks [] = "- (nenhum)") ∧
    (∀ l ls, mdLinks (l :: ls) = String.intercalate "\n"
      ((l :: ls).map (fun p => "- " ++ p.1 ++ " -> [" ++ p.2 ++ "](" ++ p.2 ++ ")"))) ∧
    (∀ ctx language tone s m, render_messages "{imports_md}" ctx language tone s m =
      some [⟨"user", mdLinks ctx.imports_links⟩]) ∧
    (∀ ctx language tone s m, render_messages "{imported_by_md}" ctx language tone s m =
      some [⟨"user", mdLinks ctx.imported_by_links⟩]) ∧
    (∀ template ctx language tone s m msgs,
      render_messages template ctx language tone s m = some msgs →
      ∃ u, msgs = [⟨"user", u⟩]) := by
  refine ⟨rfl, ?_, ?_, ?_, ?_⟩
  · intro l ls
    unfold mdLinks mdLinkLine
    simp
  · intro ctx language tone s m
    show Option.map _ (pyFormatF _ 12 _) = _
    simp [pyFormatF, renderLookup]
  · intro ctx language tone s m
    show Option.map _ (pyFormatF _ 16 _) = _
    simp [pyFormatF, renderLookup]
  · intro template ctx language tone s m msgs h
    unfold render_messages at h
    cases hf : pyFormat (renderLookup ctx language tone s m) template.data with
    | none => rw [hf] at h; cases h
    | some u =>
      rw [hf] at h
      simp only [Option.map_some', Option.some.injEq] at h
      exact ⟨⟨u⟩, h.symm⟩

theorem claim_C9_amended_witness :
    render_messages "{imports_md}" ⟨"a.ts", "code", "ts", "x", [], []⟩ "pt" "t" 1 1 =
      some [⟨"user", "- (nenhum)"⟩] ∧
    ∃ u, ([⟨"user", "- (nenhum)"⟩] : List ChatMessage) = [⟨"user", u⟩] := by
  have h := claim_C9_amended.2.2.2.2 "{imports_md}" ⟨"a.ts", "code", "ts", "x", [], []⟩
    "pt" "t" 1 1 [⟨"user", "- (nenhum)"⟩] (by rfl)
  exact ⟨by rfl, h⟩

/-! ### Router lemmas (shared by C1, C2, C6) -/

theorem tryModel_structural (oracle : String → Nat → ChatResult) (params : GroqParams)
    (model : String) (f : Nat) (st : RouterSt) (status : Nat) (et em : String)
    (hres : oracle model 1 = .statusErr (some status) et em)
    (hst : status = 400 ∨ status = 404 ∨ status = 422)
    (hsvc : status = 400 → ¬(strContains em "service_tier" = true ∧
      strContains em "not available for this org" = true)) :
    tryModel oracle params model (f + 1) 1 st =
      (none, ⟨st.forcedServiceTier, st.disabledModels ++ [model],
        some (.statusErr (some status) et em),
        st.calls ++ [(model, 1, chatServiceTierField (effParams params st.forcedServiceTier))]⟩) := by
  have h429 : ¬((some status : Option Nat) = some 429) := by
    rcases hst with h | h | h <;> subst h <;> decide
  have htier : ¬((some status : Option Nat) = some 400 ∧
      strContains em "service_tier" = true ∧
      strContains em "not available for this org" = true) := by
    rintro ⟨h400, hs1, hs2⟩
    exact hsvc (Option.some.inj h400) ⟨hs1, hs2⟩
  have h498 : ¬((some status : Option Nat) = some 498 ∧
      strContains (pyLower em) "capacity_exceeded" = true) := by
    rintro ⟨h, -⟩
    have := Option.some.inj h
    rcases hst with h' | h' | h' <;> omega
  have h5 : ¬(is5xx (some status) = true) := by
    rcases hst with h | h | h <;> subst h <;> decide
  have hS : isStructural4xx (some status) = true := by
    rcases hst with h | h | h <;> subst h <;> simp [isStructural4xx]
  simp only [tryModel, hres]
  rw [if_neg h429, if_neg htier, if_neg h498, if_neg h5, if_pos hS]

theorem tryModel_success (oracle : String → Nat → ChatResult) (params : GroqParams)
    (model : String) (f : Nat) (st : RouterSt) (txt : String)
    (hdrs : List (String × String))
    (hres : oracle model 1 = .success txt hdrs) :
    tryModel oracle params model (f + 1) 1 st =
      (some txt, { st with calls :=
        st.calls ++ [(model, 1, chatServiceTierField (effParams params st.forcedServiceTier))] }) := by
  simp only [tryModel, hres]

/-- C2.  A chat failure with HTTP 400/404/422 not classified as rate
limit, service-tier rejection, or capacity excess disables the model and
advances to the next one: with model A failing that way on attempt 1 and
model B succeeding, `generate` returns `(text, B)` with exactly one
backend invocation per model and A in the disabled set; with every model
exhausted it fails carrying the last observed error. -/
theorem claim_C2_router_fallback :
    (∀ (oracle : String → Nat → ChatResult) (params : GroqParams) (maxA : Nat)
      (A B : String) (status : Nat) (et em txt : String) (hdrs : List (String × String)),
      A ≠ B →
      (status = 400 ∨ status = 404 ∨ status = 422) →
      (status = 400 → ¬(strContains em "service_tier" = true ∧
        strContains em "not available for this org" = true)) →
      oracle A 1 = .statusErr (some status) et em →
      oracle B 1 = .success txt hdrs →
      1 ≤ maxA →
      generateGo oracle params maxA [A, B] emptyRouterSt =
        (.ok txt B,
         ⟨none, [A], some (.statusErr (some status) et em),
          [(A, 1, chatServiceTierField params), (B, 1, chatServiceTierField params)]⟩)) ∧
    (∀ (oracle : String → Nat → ChatResult) (params : GroqParams) (maxA : Nat)
      (A : String) (status : Nat) (et em : String),
      (status = 400 ∨ status = 404 ∨ status = 422) →
      (status = 400 → ¬(strContains em "service_tier" = true ∧
        strContains em "not available for this org" = true)) →
      oracle A 1 = .statusErr (some status) et em →
      1 ≤ maxA →
      generateGo oracle params maxA [A] emptyRouterSt =
        (.failure (some (.statusErr (some status) et em)),
         ⟨none, [A], some (.statusErr (some status) et em),
          [(A, 1, chatServiceTierField params)]⟩)) := by
  constructor
  · intro oracle params maxA A B status et em txt hdrs hAB hst hsvc hA hB hmA
    obtain ⟨f, rfl⟩ : ∃ f, maxA = f + 1 := ⟨maxA - 1, by omega⟩
    have hAmem : ¬(A ∈ emptyRouterSt.disabledModels) := by simp [emptyRouterSt]
    simp only [generateGo]
    rw [if_neg hAmem, tryModel_structural oracle params A f emptyRouterSt status et em hA hst hsvc]
    have hBmem : ¬(B ∈ ([A] : List String)) := by
      simp only [List.mem_singleton]
      exact fun h => hAB h.symm
    simp only [generateGo, emptyRouterSt, List.nil_append]
    rw [if_neg hBmem, tryModel_success oracle params B f _ txt hdrs hB]
    rfl
  · intro oracle params maxA A status et em hst hsvc hA hmA
    obtain ⟨f, rfl⟩ : ∃ f, maxA = f + 1 := ⟨maxA - 1, by omega⟩
    have hAmem : ¬(A ∈ emptyRouterSt.disabledModels) := by simp [emptyRouterSt]
    simp only [generateGo]
    rw [if_neg hAmem, tryModel_structural oracle params A f emptyRouterSt status et em hA hst hsvc]
    rfl

/-- Concrete backend behaviours used by witnesses. -/
def oracleC2 : String → Nat → ChatResult := fun model _ =>
  if model = "modelA" then .statusErr (some 404) "invalid_request_error" "model modelA not found"
  else .success "TEXT" []

def params0 : GroqParams := ⟨1, 1, 1024, false, none, none⟩

theorem claim_C2_router_fallback_witness :
    generateGo oracleC2 params0 3 ["modelA", "modelB"] emptyRouterSt =
      (.ok "TEXT" "modelB",
       ⟨none, ["modelA"],
        some (.statusErr (some 404) "invalid_request_error" "model modelA not found"),
        [("modelA", 1, chatServiceTierField params0),
         ("modelB", 1, chatServiceTierField params0)]⟩) :=
  claim_C2_router_fallback.1 oracleC2 params0 3 "modelA" "modelB" 404
    "invalid_request_error" "model modelA not found" "TEXT" [] (by decide)
    (by decide) (by decide) (by decide) (by decide) (by decide)

/-- The HTTP 400 service-tier rejection used in C6's theorems. -/
def msg400 : String := "The service_tier flex is not available for this org"

def oracleServiceTier : String → Nat → ChatResult := fun _ attempt =>
  if attempt = 1 then .statusErr (some 400) "invalid_request_error" msg400
  else .success "ok" []

/-- C6 counterexample.  On the service-tier rejection the router forces
the tier to the string `"on_demand"` (underscore), not `"on-demand"` as
the claim states; and a `"on-demand"` effective tier is transmitted
verbatim by the client, not omitted. -/
theorem claim_C6_counterexample :
    (tryModel oracleServiceTier params0 "m" 2 1 emptyRouterSt).2.forcedServiceTier =
      some "on_demand" ∧
    some "on_demand" ≠ some "on-demand" ∧
    chatServiceTierField { params0 with service_tier := some "on-demand" } =
      some "on-demand" := by
  refine ⟨by decide, by decide, by decide⟩

/-- C6 as amended.  On HTTP 400 mentioning `service_tier` / "not available
for this org", or HTTP 498 with `capacity_exceeded`, the router sets the
forced tier to `"on_demand"` and retries the same model (next attempt);
the client omits the service-tier request field exactly when the effective
tier (after any forced override) is unset or empty and transmits any other
non-empty value verbatim; the configured tier is normalized at run start:
blank or case-insensitive `on_demand` becomes unset. -/
theorem claim_C6_amended :
    (∀ (oracle : String → Nat → ChatResult) (params : GroqParams) (model : String)
      (f : Nat) (st : RouterSt) (et em : String),
      oracle model 1 = .statusErr (some 400) et em →
      strContains em "service_tier" = true →
      strContains em "not available for this org" = true →
      tryModel oracle params model (f + 2) 1 st =
        tryModel oracle params model (f + 1) 2
          ⟨some "on_demand", st.disabledModels, some (.statusErr (some 400) et em),
           st.calls ++ [(model, 1, chatServiceTierField (effParams params st.forcedServiceTier))]⟩) ∧
    (∀ (oracle : String → Nat → ChatResult) (params : GroqParams) (model : String)
      (f : Nat) (st : RouterSt) (et em : String),
      oracle model 1 = .statusErr (some 498) et em →
      strContains (pyLower em) "capacity_exceeded" = true →
      tryModel oracle params model (f + 2) 1 st =
        tryModel oracle params model (f + 1) 2
          ⟨some "on_demand", st.disabledModels, some (.statusErr (some 498) et em),
           st.calls ++ [(model, 1, chatServiceTierField (effParams params st.forcedServiceTier))]⟩) ∧
    (∀ p : GroqParams, chatServiceTierField p = none ↔
      (p.service_tier = none ∨ p.service_tier = some "")) ∧
    (∀ (p : GroqParams) (v : String), p.service_tier = some v → v ≠ "" →
      chatServiceTierField p = some v) ∧
    (docgenServiceTier (some "on_demand") = none ∧ docgenServiceTier none = none ∧
     docgenServiceTier (some " ON_DEMAND ") = none ∧
     docgenServiceTier (some "flex") = some "flex") := by
  refine ⟨?_, ?_, ?_, ?_, by decide, by decide, by decide, by decide⟩
  · intro oracle params model f st et em hres hs1 hs2
    have h429 : ¬((some 400 : Option Nat) = some 429) := by decide
    simp only [tryModel, hres]
    simp [hs1, hs2]
  · intro oracle params model f st et em hres hs1
    have h429 : ¬((some 498 : Option Nat) = some 429) := by decide
    have htier : ¬((some 498 : Option Nat) = some 400 ∧
        strContains em "service_tier" = true ∧
        strContains em "not available for this org" = true) := by
      rintro ⟨h, -⟩; cases h
    simp only [tryModel, hres]
    simp [hs1]
  · intro p
    unfold chatServiceTierField
    cases hv : p.service_tier with
    | none => simp
    | some v =>
      by_cases hvv : v = "" <;> simp [hvv]
  · intro p v hv hvv
    unfold chatServiceTierField
    rw [hv]
    simp [hvv]

theorem claim_C6_amended_witness :
    tryModel oracleServiceTier params0 "m" 2 1 emptyRouterSt =
      tryModel oracleServiceTier params0 "m" 1 2
        ⟨some "on_demand", [], some (.statusErr (some 400) "invalid_request_error" msg400),
         [("m", 1, chatServiceTierField (effParams params0 none))]⟩ :=
  claim_C6_amended.1 oracleServiceTier params0 "m" 0 emptyRouterSt
    "invalid_request_error" msg400 (by decide) (by decide) (by decide)

/-! ### Rate limiter lemmas (C7) -/

theorem runEvents_append (cfg : ThrottleConfig) (st : LState) (a b : List LEvent) :
    runEvents cfg st (a ++ b) =
      match runEvents cfg st a with
      | some st' => runEvents cfg st' b
      | none => none := by
  induction a generalizing st with
  | nil => rfl
  | cons e rest ih =>
    simp only [List.cons_append, runEvents]
    cases lstep cfg st e with
    | none => rfl
    | some st' => exact ih st'

theorem lstep_nextAllowed_of_not_acq (cfg : ThrottleConfig) (st st' : LState)
    (e : LEvent) (he : e.isAcq = false) (h : lstep cfg st e = some st') :
    st'.nextAllowed = st.nextAllowed := by
  cases e with
  | acq now => simp [LEvent.isAcq] at he
  | rateLimited now headers jitter =>
    simp only [lstep] at h
    split at h
    · split at h <;> (cases h; rfl)
    · cases h
  | successHeaders now headers jitter =>
    simp only [lstep] at h
    split at h
    · split at h
      · split at h <;> (cases h; rfl)
      · cases h; rfl
    · cases h

theorem runEvents_nextAllowed_of_no_acq (cfg : ThrottleConfig) :
    ∀ (evs : List LEvent) (st st' : LState), (∀ e ∈ evs, e.isAcq = false) →
    runEvents cfg st evs = some st' → st'.nextAllowed = st.nextAllowed := by
  intro evs
  induction evs with
  | nil => intro st st' _ h; cases h; rfl
  | cons e rest ih =>
    intro st st' hno h
    unfold runEvents at h
    cases hl : lstep cfg st e with
    | none => rw [hl] at h; cases h
    | some st1 =>
      rw [hl] at h
      have h1 := lstep_nextAllowed_of_not_acq cfg st st1 e (hno e (by simp)) hl
      have h2 := ih st1 st' (fun e' he' => hno e' (by simp [he'])) h
      rw [h2, h1]

theorem lstep_blockedUntil_mono (cfg : ThrottleConfig) (st st' : LState)
    (e : LEvent) (h : lstep cfg st e = some st') :
    st.blockedUntil ≤ st'.blockedUntil := by
  cases e with
  | acq now =>
    simp only [lstep] at h
    split at h
    · split at h
      · cases h; exact le_refl _
      · cases h
    · cases h; exact le_refl _
  | rateLimited now headers jitter =>
    simp only [lstep] at h
    split at h
    · split at h <;> cases h
      · exact le_max_left _ _
      · exact le_refl _
    · cases h
  | successHeaders now headers jitter =>
    simp only [lstep] at h
    split at h
    · split at h
      · split at h <;> cases h
        · exact le_max_left _ _
        · exact le_refl _
      · cases h; exact le_refl _
    · cases h

theorem runEvents_blockedUntil_mono (cfg : ThrottleConfig) :
    ∀ (evs : List LEvent) (st st' : LState),
    runEvents cfg st evs = some st' → st.blockedUntil ≤ st'.blockedUntil := by
  intro evs
  induction evs with
  | nil => intro st st' h; cases h; exact le_refl _
  | cons e rest ih =>
    intro st st' h
    unfold runEvents at h
    cases hl : lstep cfg st e with
    | none => rw [hl] at h; cases h
    | some st1 =>
      rw [hl] at h
      exact le_trans (lstep_blockedUntil_mono cfg st st1 e hl) (ih st1 st' h)

/-- C7.  With throttling enabled: two consecutive successful acquisitions
(no acquisition between them) are at least `min_interval_seconds` apart;
and after an `on_rate_limited` observation at `t0` deriving wait `w` from
`retry-after` / `x-ratelimit-reset-tokens` (with `w = 3` when neither
parses, as on empty headers), no later acquisition returns before
`t0 + w`. -/
theorem claim_C7_rate_limiter_pacing :
    (∀ (cfg : ThrottleConfig) (st st' : LState) (evs1 evs2 evs3 : List LEvent)
      (t1 t2 : ℚ),
      cfg.enabled = true →
      runEvents cfg st (evs1 ++ .acq t1 :: (evs2 ++ .acq t2 :: evs3)) = some st' →
      (∀ e ∈ evs2, e.isAcq = false) →
      t1 + cfg.min_interval_seconds ≤ t2) ∧
    (∀ (cfg : ThrottleConfig) (st st' : LState) (evs1 evs2 evs3 : List LEvent)
      (t0 t : ℚ) (headers : List (String × String)) (jitter : ℚ),
      cfg.enabled = true →
      runEvents cfg st (evs1 ++ .rateLimited t0 headers jitter :: (evs2 ++ .acq t :: evs3)) =
        some st' →
      t0 + rlWaitSeconds headers ≤ t) ∧
    rlWaitSeconds [] = 3 := by
  refine ⟨?_, ?_, by simp [rlWaitSeconds, parse_duration_seconds, header_get]⟩
  · intro cfg st st' evs1 evs2 evs3 t1 t2 hen hrun hno
    rw [runEvents_append] at hrun
    cases h1 : runEvents cfg st evs1 with
    | none => rw [h1] at hrun; cases hrun
    | some s1 =>
      rw [h1] at hrun
      unfold runEvents at hrun
      cases hl1 : lstep cfg s1 (.acq t1) with
      | none => rw [hl1] at hrun; cases hrun
      | some s2 =>
        rw [hl1] at hrun
        dsimp only at hrun
        have hs2 : s2.nextAllowed = t1 + cfg.min_interval_seconds := by
          simp only [lstep, hen, if_true] at hl1
          split at hl1
          · cases hl1; rfl
          · cases hl1
        rw [runEvents_append] at hrun
        cases h2 : runEvents cfg s2 evs2 with
        | none => rw [h2] at hrun; cases hrun
        | some s3 =>
          rw [h2] at hrun
          dsimp only at hrun
          have hs3 : s3.nextAllowed = s2.nextAllowed :=
            runEvents_nextAllowed_of_no_acq cfg evs2 s2 s3 hno h2
          unfold runEvents at hrun
          cases hl2 : lstep cfg s3 (.acq t2) with
          | none => rw [hl2] at hrun; cases hrun
          | some s4 =>
            have hguard : max s3.nextAllowed s3.blockedUntil ≤ t2 := by
              simp only [lstep, hen, if_true] at hl2
              split at hl2
              · assumption
              · cases hl2
            calc t1 + cfg.min_interval_seconds = s2.nextAllowed := hs2.symm
              _ = s3.nextAllowed := hs3.symm
              _ ≤ max s3.nextAllowed s3.blockedUntil := le_max_left _ _
              _ ≤ t2 := hguard
  · intro cfg st st' evs1 evs2 evs3 t0 t headers jitter hen hrun
    rw [runEvents_append] at hrun
    cases h1 : runEvents cfg st evs1 with
    | none => rw [h1] at hrun; cases hrun
    | some s1 =>
      rw [h1] at hrun
      unfold runEvents at hrun
      cases hl1 : lstep cfg s1 (.rateLimited t0 headers jitter) with
      | none => rw [hl1] at hrun; cases hrun
      | some s2 =>
        rw [hl1] at hrun
        dsimp only at hrun
        have hjit : 3/10 ≤ jitter := by
          simp only [lstep] at hl1
          by_cases hj : (3:ℚ)/10 ≤ jitter ∧ jitter < 1
          · exact hj.1
          · rw [if_neg hj] at hl1; cases hl1
        have hj0 : (0:ℚ) ≤ jitter := le_trans (by norm_num) hjit
        have hs2 : t0 + rlWaitSeconds headers ≤ s2.blockedUntil := by
          simp only [lstep, hen, if_true] at hl1
          split at hl1
          · cases hl1
            have h1 : t0 + rlWaitSeconds headers ≤ t0 + rlWaitSeconds headers + jitter := by
              linarith
            exact le_trans h1 (le_max_right _ _)
          · cases hl1
        rw [runEvents_append] at hrun
        cases h2 : runEvents cfg s2 evs2 with
        | none => rw [h2] at hrun; cases hrun
        | some s3 =>
          rw [h2] at hrun
          dsimp only at hrun
          have hs3 : s2.blockedUntil ≤ s3.blockedUntil :=
            runEvents_blockedUntil_mono cfg evs2 s2 s3 h2
          unfold runEvents at hrun
          cases hl2 : lstep cfg s3 (.acq t) with
          | none => rw [hl2] at hrun; cases hrun
          | some s4 =>
            have hguard : max s3.nextAllowed s3.blockedUntil ≤ t := by
              simp only [lstep, hen, if_true] at hl2
              split at hl2
              · assumption
              · cases hl2
            calc t0 + rlWaitSeconds headers ≤ s2.blockedUntil := hs2
              _ ≤ s3.blockedUntil := hs3
              _ ≤ max s3.nextAllowed s3.blockedUntil := le_max_right _ _
              _ ≤ t := hguard

theorem claim_C7_rate_limiter_pacing_witness :
    runEvents ⟨true, 2, 800⟩ ⟨0, 0⟩
      ([] ++ .acq 0 :: ([] ++ .acq 2 :: [])) = some ⟨4, 0⟩ ∧
    (0 : ℚ) + 2 ≤ 2 ∧
    runEvents ⟨true, 2, 800⟩ ⟨0, 0⟩
      ([.acq 0] ++ .rateLimited 1 [] (1/2) :: ([] ++ .acq 5 :: [])) = some ⟨7, 9/2⟩ ∧
    (1 : ℚ) + rlWaitSeconds [] ≤ 5 := by
  have e1 : runEvents ⟨true, 2, 800⟩ ⟨0, 0⟩
      ([] ++ .acq 0 :: ([] ++ .acq 2 :: [])) = some ⟨4, 0⟩ := by
    simp [runEvents, lstep]
    norm_num
  have e2 : runEvents ⟨true, 2, 800⟩ ⟨0, 0⟩
      ([.acq 0] ++ .rateLimited 1 [] (1/2) :: ([] ++ .acq 5 :: [])) = some ⟨7, 9/2⟩ := by
    simp [runEvents, lstep, rlWaitSeconds, parse_duration_seconds, header_get]
    norm_num
  refine ⟨e1, ?_, e2, ?_⟩
  · exact claim_C7_rate_limiter_pacing.1 ⟨true, 2, 800⟩ ⟨0, 0⟩ ⟨4, 0⟩ [] [] [] 0 2
      (by rfl) e1 (by intro e he; cases he)
  · exact claim_C7_rate_limiter_pacing.2.1 ⟨true, 2, 800⟩ ⟨0, 0⟩ ⟨7, 9/2⟩ [.acq 0] [] []
      1 5 [] (1/2) (by rfl) e2

/-! ### Backend-call counting (C1) -/

theorem tryModel_calls_mono (oracle : String → Nat → ChatResult) (params : GroqParams)
    (model : String) :
    ∀ (fuel attempt : Nat) (st : RouterSt),
    st.calls.length ≤ (tryModel oracle params model fuel attempt st).2.calls.length := by
  intro fuel
  induction fuel with
  | zero => intro attempt st; exact le_refl _
  | succ f ih =>
    intro attempt st
    simp only [tryModel]
    cases hres : oracle model attempt with
    | success txt hdrs => simp
    | rateLimitErr hdrs =>
      refine le_trans ?_ (ih (attempt + 1) _)
      simp
    | statusErr status etype emsg =>
      dsimp only
      split
      · refine le_trans ?_ (ih (attempt + 1) _); simp
      · split
        · refine le_trans ?_ (ih (attempt + 1) _); simp
        · split
          · refine le_trans ?_ (ih (attempt + 1) _); simp
          · split
            · refine le_trans ?_ (ih (attempt + 1) _); simp
            · split
              · simp
              · simp
    | otherErr msg => simp

theorem tryModel_calls_strict (oracle : String → Nat → ChatResult) (params : GroqParams)
    (model : String) (f attempt : Nat) (st : RouterSt) :
    st.calls.length < (tryModel oracle params model (f + 1) attempt st).2.calls.length := by
  simp only [tryModel]
  have grow : ∀ x, st.calls.length <
      ({ st with calls := st.calls ++ [x] } : RouterSt).calls.length := by
    intro x; simp
  cases hres : oracle model attempt with
  | success txt hdrs => simp
  | rateLimitErr hdrs =>
    refine lt_of_lt_of_le ?_ (tryModel_calls_mono oracle params model f (attempt + 1) _)
    simp
  | statusErr status etype emsg =>
    dsimp only
    split
    · refine lt_of_lt_of_le ?_ (tryModel_calls_mono oracle params model f (attempt + 1) _); simp
    · split
      · refine lt_of_lt_of_le ?_ (tryModel_calls_mono oracle params model f (attempt + 1) _); simp
      · split
        · refine lt_of_lt_of_le ?_ (tryModel_calls_mono oracle params model f (attempt + 1) _); simp
        · split
          · refine lt_of_lt_of_le ?_ (tryModel_calls_mono oracle params model f (attempt + 1) _); simp
          · split
            · simp
            · simp
  | otherErr msg => simp

theorem generateGo_calls_mono (oracle : String → Nat → ChatResult) (params : GroqParams)
    (maxA : Nat) :
    ∀ (models : List String) (st : RouterSt),
    st.calls.length ≤ (generateGo oracle params maxA models st).2.calls.length := by
  intro models
  induction models with
  | nil => intro st; exact le_refl _
  | cons m rest ih =>
    intro st
    simp only [generateGo]
    split
    · exact ih st
    · cases htm : tryModel oracle params m maxA 1 st with
      | mk o st' =>
        have hmono := tryModel_calls_mono oracle params m maxA 1 st
        rw [htm] at hmono
        cases o with
        | some txt => simpa using hmono
        | none =>
          dsimp only
          exact le_trans hmono (ih st')

theorem generateGo_calls_strict (oracle : String → Nat → ChatResult) (params : GroqParams)
    (maxA : Nat) :
    ∀ (models : List String) (st : RouterSt),
    (∃ m ∈ models, m ∉ st.disabledModels) → 1 ≤ maxA →
    st.calls.length < (generateGo oracle params maxA models st).2.calls.length := by
  intro models
  induction models with
  | nil => intro st h _; simp at h
  | cons m rest ih =>
    intro st havail hmA
    obtain ⟨f, rfl⟩ : ∃ f, maxA = f + 1 := ⟨maxA - 1, by omega⟩
    simp only [generateGo]
    split
    · rename_i hmem
      refine ih st ?_ hmA
      obtain ⟨m', hm', hnd⟩ := havail
      rcases List.mem_cons.mp hm' with rfl | hrest
      · exact absurd hmem hnd
      · exact ⟨m', hrest, hnd⟩
    · cases htm : tryModel oracle params m (f + 1) 1 st with
      | mk o st' =>
        have hstrict := tryModel_calls_strict oracle params m f 1 st
        rw [htm] at hstrict
        cases o with
        | some txt => simpa using hstrict
        | none =>
          dsimp only
          exact lt_of_lt_of_le hstrict (generateGo_calls_mono oracle params (f + 1) rest st')

theorem processChunks_calls_mono (oracle : String → Nat → ChatResult) (params : GroqParams)
    (maxA : Nat) (models : List String) :
    ∀ (chunks : List (List Char)) (st : RouterSt),
    st.calls.length ≤ (processChunks oracle params maxA models chunks st).2.calls.length := by
  intro chunks
  induction chunks with
  | nil => intro st; exact le_refl _
  | cons c rest ih =>
    intro st
    simp only [processChunks]
    cases hg : generateGo oracle params maxA models st with
    | mk res st' =>
      have hmono := generateGo_calls_mono oracle params maxA models st
      rw [hg] at hmono
      cases res with
      | ok txt mdl =>
        dsimp only
        cases hpc : processChunks oracle params maxA models rest st' with
        | mk o2 st'' =>
          have h2 := ih st'
          rw [hpc] at h2
          cases o2 <;> exact le_trans hmono h2
      | failure e => exact hmono

theorem processChunks_calls_strict (oracle : String → Nat → ChatResult) (params : GroqParams)
    (maxA : Nat) (models : List String) (chunk : List Char) (chunks : List (List Char))
    (st : RouterSt) (havail : ∃ m ∈ models, m ∉ st.disabledModels) (hmA : 1 ≤ maxA) :
    st.calls.length <
      (processChunks oracle params maxA models (chunk :: chunks) st).2.calls.length := by
  simp only [processChunks]
  cases hg : generateGo oracle params maxA models st with
  | mk res st' =>
    have hstrict := generateGo_calls_strict oracle params maxA models st havail hmA
    rw [hg] at hstrict
    cases res with
    | ok txt mdl =>
      dsimp only
      cases hpc : processChunks oracle params maxA models chunks st' with
      | mk o2 st'' =>
        have h2 := processChunks_calls_mono oracle params maxA models chunks st'
        rw [hpc] at h2
        cases o2 <;> exact lt_of_lt_of_le hstrict h2
    | failure e => exact hstrict

theorem splitLinesKeepEnds_ne_nil (xs : List Char) (h : xs ≠ []) :
    splitLinesKeepEnds xs ≠ [] := by
  cases xs with
  | nil => exact absurd rfl h
  | cons c rest =>
    rw [splitLinesKeepEnds.eq_def]
    dsimp only
    split
    · cases rest with
      | nil => simp
      | cons d rest2 =>
        dsimp only
        split <;> simp
    · split
      · simp
      · split <;> simp

theorem chunkLoop_ne_nil (maxChars overlap : Nat) :
    ∀ (lines : List (List Char)) (cur : List (List Char)) (curLen : Nat),
    lines ≠ [] ∨ cur ≠ [] → chunkLoop maxChars overlap cur curLen lines ≠ [] := by
  intro lines
  induction lines with
  | nil =>
    intro cur curLen h
    rcases h with h | h
    · exact absurd rfl h
    · simp only [chunkLoop]
      rw [if_neg h]
      simp
  | cons line rest ih =>
    intro cur curLen _
    simp only [chunkLoop]
    split
    · simp
    · exact ih _ _ (by by_cases hr : rest = [] <;> simp [hr])

theorem chunk_text_by_lines_ne_nil (text : List Char) (maxChars overlap : Nat) :
    chunk_text_by_lines text maxChars overlap ≠ [] := by
  unfold chunk_text_by_lines
  split
  · simp
  · rename_i hlen
    have htext : text ≠ [] := by
      intro he
      subst he
      simp at hlen
    exact chunkLoop_ne_nil maxChars overlap _ [] 0
      (Or.inl (splitLinesKeepEnds_ne_nil text htext))

/-- C1.  When `force` is false, the manifest hash matches the fingerprint
of the redacted content and the output file exists, the work item is
skipped with the router state (hence the backend-call trace) unchanged;
with `force` true the item is processed and the backend is called at least
once (given an available model and a positive attempt budget), regardless
of the manifest state. -/
theorem claim_C1_cache_skip_and_force :
    (∀ (content : String) (maxChars overlap : Nat)
      (oracle : String → Nat → ChatResult) (params : GroqParams) (maxA : Nat)
      (models : List String) (st : RouterSt) (manifestSha : Option String)
      (outExists : Bool),
      manifestSha = some (sha256_text (redact_secrets content)) →
      outExists = true →
      processOne false manifestSha content outExists maxChars overlap oracle params
        maxA models st = (POut.skipped, st)) ∧
    (∀ (content : String) (maxChars overlap : Nat)
      (oracle : String → Nat → ChatResult) (params : GroqParams) (maxA : Nat)
      (models : List String) (st : RouterSt) (manifestSha : Option String)
      (outExists : Bool),
      (∃ m ∈ models, m ∉ st.disabledModels) → 1 ≤ maxA →
      st.calls.length <
        (processOne true manifestSha content outExists maxChars overlap oracle params
          maxA models st).2.calls.length) := by
  constructor
  · intro content maxChars overlap oracle params maxA models st manifestSha outExists hm ho
    subst hm; subst ho
    unfold processOne
    rw [if_pos ⟨rfl, rfl, rfl⟩]
  · intro content maxChars overlap oracle params maxA models st manifestSha outExists havail hmA
    unfold processOne
    rw [if_neg (by rintro ⟨h, -⟩; cases h)]
    obtain ⟨c0, cs, hch⟩ : ∃ c0 cs,
        chunk_text_by_lines (redact_secrets content).data maxChars overlap = c0 :: cs := by
      cases hc : chunk_text_by_lines (redact_secrets content).data maxChars overlap with
      | nil => exact absurd hc (chunk_text_by_lines_ne_nil _ _ _)
      | cons a b => exact ⟨a, b, rfl⟩
    rw [hch]
    have hstrict := processChunks_calls_strict oracle params maxA models c0 cs st havail hmA
    cases hpc : processChunks oracle params maxA models (c0 :: cs) st with
    | mk o st' =>
      rw [hpc] at hstrict
      cases o with
      | none => exact hstrict
      | some partials =>
        dsimp only
        cases partials with
        | nil => exact hstrict
        | cons p restP =>
          cases restP with
          | nil => simpa using hstrict
          | cons q restQ =>
            dsimp only
            cases hg : generateGo oracle params maxA models st' with
            | mk res st'' =>
              have hmono := generateGo_calls_mono oracle params maxA models st'
              rw [hg] at hmono
              cases res <;> exact lt_of_lt_of_le hstrict hmono

def oracleC1 : String → Nat → ChatResult := fun _ _ => .success "doc body" []

theorem claim_C1_cache_skip_and_force_witness :
    processOne false (some (sha256_text (redact_secrets "hello"))) "hello" true 100 0
      oracleC1 params0 1 ["m"] emptyRouterSt = (POut.skipped, emptyRouterSt) ∧
    emptyRouterSt.calls.length <
      (processOne true (some (sha256_text (redact_secrets "hello"))) "hello" true 100 0
        oracleC1 params0 1 ["m"] emptyRouterSt).2.calls.length :=
  ⟨claim_C1_cache_skip_and_force.1 "hello" 100 0 oracleC1 params0 1 ["m"] emptyRouterSt
      _ _ rfl rfl,
   claim_C1_cache_skip_and_force.2 "hello" 100 0 oracleC1 params0 1 ["m"] emptyRouterSt
      (some (sha256_text (redact_secrets "hello"))) true (by decide) (by decide)⟩

/-- C4 counterexample.  With cap 10 and overlap 3 on a 20-character input
whose lines all have length 5, the chunker emits a chunk of length 15:
the overlap re-adds lines before the cap check, so a chunk exceeds the cap
although no line of the input is longer than the cap. -/
theorem claim_C4_counterexample :
    ∃ ch ∈ chunk_text_by_lines ("aaaa\nbbbb\ncccc\ndddd\n".data) 10 3,
      10 < ch.length ∧
      ∀ l ∈ splitLinesKeepEnds ("aaaa\nbbbb\ncccc\ndddd\n".data), l.length ≤ 10 := by
  decide

theorem joinChunk_length (cur : List (List Char)) :
    (joinChunk cur).length = (cur.map List.length).sum := by
  simp [joinChunk]

/-- The zero-overlap loop invariant behind the amended C4: the pending
chunk either fits the cap or is a single original line. -/
theorem chunkLoop_zero_overlap_inv (maxChars : Nat) (L : List (List Char)) :
    ∀ (lines cur : List (List Char)) (curLen : Nat),
    curLen = (cur.map List.length).sum →
    ((cur.map List.length).sum ≤ maxChars ∨ ∃ l0, cur = [l0]) →
    (∀ l ∈ cur, l ∈ L) → (∀ l ∈ lines, l ∈ L) →
    ∀ ch ∈ chunkLoop maxChars 0 cur curLen lines,
      ch.length ≤ maxChars ∨ ∃ l ∈ L, maxChars < l.length ∧ ch = l := by
  intro lines
  induction lines with
  | nil =>
    intro cur curLen hlen hinv hsub _ ch hch
    simp only [chunkLoop] at hch
    split at hch
    · exact absurd hch (by simp)
    · have hc : ch = joinChunk cur := by simpa using hch
      subst hc
      rcases hinv with hle | ⟨l0, rfl⟩
      · exact Or.inl (by rw [joinChunk_length]; exact hle)
      · have hj : joinChunk [l0] = l0 := by simp [joinChunk]
        rw [hj]
        by_cases hl : l0.length ≤ maxChars
        · exact Or.inl hl
        · exact Or.inr ⟨l0, hsub l0 (by simp), by omega, rfl⟩
  | cons line rest ih =>
    intro cur curLen hlen hinv hsub hlines ch hch
    simp only [chunkLoop] at hch
    split at hch
    · rename_i hcond
      rcases List.mem_cons.mp hch with rfl | hch'
      · rcases hinv with hle | ⟨l0, rfl⟩
        · exact Or.inl (by rw [joinChunk_length]; exact hle)
        · have hj : joinChunk [l0] = l0 := by simp [joinChunk]
          rw [hj]
          by_cases hl : l0.length ≤ maxChars
          · exact Or.inl hl
          · exact Or.inr ⟨l0, hsub l0 (by simp), by omega, rfl⟩
      · have hov : overlapTail 0 cur = [] := by simp [overlapTail]
        rw [hov] at hch'
        simp only [List.nil_append, List.map_nil, List.sum_nil, Nat.zero_add] at hch'
        refine ih [line] line.length (by simp) (Or.inr ⟨line, rfl⟩) ?_
          (fun l hl => hlines l (by simp [hl])) ch hch'
        intro l hl
        have : l = line := by simpa using hl
        subst this
        exact hlines l (by simp)
    · rename_i hcond
      refine ih (cur ++ [line]) _ (by simp [hlen]) ?_ ?_
        (fun l hl => hlines l (by simp [hl])) ch hch
      · by_cases hc : cur = []
        · subst hc
          exact Or.inr ⟨line, by simp⟩
        · left
          have hfit : curLen + line.length ≤ maxChars := by
            by_contra hlt
            exact hcond ⟨hc, by omega⟩
          simp only [List.map_append, List.sum_append, List.map_cons, List.map_nil,
            List.sum_cons, List.sum_nil]
          omega
      · intro l hl
        rcases List.mem_append.mp hl with h | h
        · exact hsub l h
        · have : l = line := by simpa using h
          subst this
          exact hlines l (by simp)

/-- C4 as amended.  With overlap 0 (the counterexample forces excluding
positive overlap), no chunk exceeds the character cap unless that chunk is
a single original line longer than the cap. -/
theorem claim_C4_amended (text : List Char) (maxChars : Nat) :
    ∀ ch ∈ chunk_text_by_lines text maxChars 0,
      ch.length ≤ maxChars ∨
      ∃ l ∈ splitLinesKeepEnds text, maxChars < l.length ∧ ch = l := by
  intro ch hch
  unfold chunk_text_by_lines at hch
  split at hch
  · rename_i hle
    have : ch = text := by simpa using hch
    subst this
    exact Or.inl hle
  · exact chunkLoop_zero_overlap_inv maxChars (splitLinesKeepEnds text)
      (splitLinesKeepEnds text) [] 0 (by simp) (Or.inl (by simp)) (by simp)
      (fun l hl => hl) ch hch

theorem claim_C4_amended_witness :
    ("ab".data.length ≤ 10 ∨
      ∃ l ∈ splitLinesKeepEnds "ab".data, 10 < l.length ∧ "ab".data = l) :=
  claim_C4_amended "ab".data 10 "ab".data (by decide)

/-- `splitlines(True)` keeps every character: concatenating the lines
restores the input. -/
theorem splitLinesKeepEnds_flatten : ∀ xs : List Char,
    (splitLinesKeepEnds xs).flatten = xs
  | [] => rfl
  | c :: rest => by
    rw [splitLinesKeepEnds.eq_def]
    dsimp only
    split
    · rename_i hc
      subst hc
      cases rest with
      | nil => rfl
      | cons d rest2 =>
        dsimp only
        split
        · rename_i hd
          subst hd
          have := splitLinesKeepEnds_flatten rest2
          simp [this]
        · have := splitLinesKeepEnds_flatten (d :: rest2)
          simp [this]
    · split
      · have := splitLinesKeepEnds_flatten rest
        simp [this]
      · cases hsp : splitLinesKeepEnds rest with
        | nil =>
          have := splitLinesKeepEnds_flatten rest
          rw [hsp] at this
          simp at this
          simp [this]
        | cons l ls =>
          have := splitLinesKeepEnds_flatten rest
          rw [hsp] at this
          dsimp only
          simpa using this

/-- Every pending line and every remaining line ends up inside some chunk
the loop emits. -/
theorem chunkLoop_complete (maxChars overlap : Nat) :
    ∀ (lines cur : List (List Char)) (curLen : Nat) (l : List Char),
    (l ∈ cur ∨ l ∈ lines) →
    ∃ ch ∈ chunkLoop maxChars overlap cur curLen lines, l <:+: ch := by
  intro lines
  induction lines with
  | nil =>
    intro cur curLen l hl
    rcases hl with hl | hl
    · have hcur : cur ≠ [] := by rintro rfl; cases hl
      refine ⟨joinChunk cur, ?_, List.infix_of_mem_flatten hl⟩
      simp only [chunkLoop]
      rw [if_neg hcur]
      simp
    · cases hl
  | cons line rest ih =>
    intro cur curLen l hl
    simp only [chunkLoop]
    split
    · rcases hl with hcur | hline
      · exact ⟨joinChunk cur, by simp, List.infix_of_mem_flatten hcur⟩
      · rcases List.mem_cons.mp hline with rfl | hrest
        · obtain ⟨ch, hch, hinf⟩ := ih (overlapTail overlap cur ++ [l])
            (((overlapTail overlap cur).map List.length).sum + l.length) l
            (Or.inl (by simp))
          exact ⟨ch, by simp [hch], hinf⟩
        · obtain ⟨ch, hch, hinf⟩ := ih (overlapTail overlap cur ++ [line])
            (((overlapTail overlap cur).map List.length).sum + line.length) l
            (Or.inr hrest)
          exact ⟨ch, by simp [hch], hinf⟩
    · rcases hl with hcur | hline
      · exact ih (cur ++ [line]) (curLen + line.length) l (Or.inl (by simp [hcur]))
      · rcases List.mem_cons.mp hline with rfl | hrest
        · exact ih (cur ++ [l]) (curLen + l.length) l (Or.inl (by simp))
        · exact ih (cur ++ [line]) (curLen + line.length) l (Or.inr hrest)

/-- C5.  An input not exceeding the limit yields exactly one chunk equal
to the input; every original line (with its terminator) is contained in at
least one emitted chunk; and the chunk list is never empty (the terminal
partial chunk is always emitted). -/
theorem claim_C5_chunker_line_coverage :
    (∀ (text : List Char) (maxChars overlap : Nat),
      text.length ≤ maxChars → chunk_text_by_lines text maxChars overlap = [text]) ∧
    (∀ (text : List Char) (maxChars overlap : Nat) (l : List Char),
      l ∈ splitLinesKeepEnds text →
      ∃ ch ∈ chunk_text_by_lines text maxChars overlap, l <:+: ch) ∧
    (∀ (text : List Char) (maxChars overlap : Nat),
      chunk_text_by_lines text maxChars overlap ≠ []) := by
  refine ⟨?_, ?_, ?_⟩
  · intro text maxChars overlap hle
    unfold chunk_text_by_lines
    rw [if_pos hle]
  · intro text maxChars overlap l hl
    unfold chunk_text_by_lines
    split
    · refine ⟨text, by simp, ?_⟩
      have := List.infix_of_mem_flatten hl
      rwa [splitLinesKeepEnds_flatten] at this
    · exact chunkLoop_complete maxChars overlap (splitLinesKeepEnds text) [] 0 l
        (Or.inr hl)
  · intro text maxChars overlap
    exact chunk_text_by_lines_ne_nil text maxChars overlap

theorem claim_C5_chunker_line_coverage_witness :
    chunk_text_by_lines "ab".data 10 0 = ["ab".data] ∧
    (∃ ch ∈ chunk_text_by_lines ("a\nbb".data) 2 1, "a\n".data <:+: ch) :=
  ⟨claim_C5_chunker_line_coverage.1 "ab".data 10 0 (by decide),
   claim_C5_chunker_line_coverage.2.1 "a\nbb".data 2 1 "a\n".data (by decide)⟩

/-! ### Redaction scan lemmas (C3, C10) -/

/-- The `\b` context after scanning past `l`: its last character, or the
incoming context when `l` is empty. -/
def ctxAfter (prev : Option Char) (l : List Char) : Option Char :=
  match l.getLast? with
  | some d => some d
  | none => prev

theorem ctxAfter_nil (prev : Option Char) : ctxAfter prev [] = prev := rfl

theorem ctxAfter_cons (prev : Option Char) (c : Char) (l : List Char) :
    ctxAfter prev (c :: l) = ctxAfter (some c) l := by
  cases l with
  | nil => rfl
  | cons d t =>
    unfold ctxAfter
    rw [List.getLast?_cons_cons]
    cases h : (d :: t).getLast? with
    | some x => rfl
    | none => exact absurd h (by simp)

def patOf : Fin 3 → Matcher
  | 0 => matchP1
  | 1 => matchP2
  | 2 => matchP3

/-- The literal first character each pattern must read. -/
def patHead : Fin 3 → Char
  | 0 => 'g'
  | 1 => 's'
  | 2 => 'e'

theorem patOf_pos (k : Fin 3) : MatcherPos (patOf k) := by
  fin_cases k
  · exact matchP1_pos
  · exact matchP2_pos
  · exact matchP3_pos

theorem matchKey_none_of_head (lits : List Char) (a : Char) (lits' : List Char)
    (hl : lits = a :: lits') (prev : Option Char) (c : Char) (rest : List Char)
    (hc : c ≠ a) : matchKey lits prev (c :: rest) = none := by
  subst hl
  unfold matchKey
  rw [if_neg]
  rintro ⟨-, hpre⟩
  rw [List.cons_prefix_cons] at hpre
  exact hc hpre.1.symm

theorem matchP3_none_of_head (prev : Option Char) (c : Char) (rest : List Char)
    (hc : c ≠ 'e') : matchP3 prev (c :: rest) = none := by
  unfold matchP3
  rw [if_neg]
  rintro ⟨-, hpre⟩
  rw [List.cons_prefix_cons] at hpre
  exact hc hpre.1.symm

theorem patOf_none_of_head (k : Fin 3) (prev : Option Char) (c : Char)
    (rest : List Char) (hc : c ≠ patHead k) : patOf k prev (c :: rest) = none := by
  fin_cases k
  · exact matchKey_none_of_head _ 'g' _ rfl prev c rest hc
  · exact matchKey_none_of_head _ 's' _ rfl prev c rest hc
  · exact matchP3_none_of_head prev c rest hc

theorem hasMatch_false_of_heads (m : Matcher) (a : Char)
    (hhead : ∀ prev c rest, c ≠ a → m prev (c :: rest) = none) :
    ∀ (xs : List Char) (prev : Option Char), (∀ c ∈ xs, c ≠ a) →
    hasMatch m prev xs = false := by
  intro xs
  induction xs with
  | nil => intro prev _; rfl
  | cons c rest ih =>
    intro prev hc
    simp only [hasMatch]
    rw [hhead prev c rest (hc c (by simp)), ih (some c) (fun d hd => hc d (by simp [hd]))]
    rfl

theorem subPat_eq_self (m : Matcher) (hm : MatcherPos m) :
    ∀ (xs : List Char) (prev : Option Char), hasMatch m prev xs = false →
    subPat m hm prev xs = xs := by
  intro xs
  induction xs with
  | nil => intro prev _; rw [subPat.eq_def]
  | cons c rest ih =>
    intro prev hmf
    simp only [hasMatch, Bool.or_eq_false_iff] at hmf
    obtain ⟨h1, h2⟩ := hmf
    have hnone : m prev (c :: rest) = none := by
      cases hmm : m prev (c :: rest) with
      | none => rfl
      | some n => rw [hmm] at h1; simp at h1
    rw [subPat.eq_def]
    dsimp only
    rw [hnone]
    dsimp only
    rw [ih (some c) h2]

theorem subPat_append_clean (m : Matcher) (hm : MatcherPos m) (a : Char)
    (hhead : ∀ prev c rest, c ≠ a → m prev (c :: rest) = none) :
    ∀ (p : List Char) (prev : Option Char) (rest : List Char),
    (∀ c ∈ p, c ≠ a) →
    subPat m hm prev (p ++ rest) = p ++ subPat m hm (ctxAfter prev p) rest := by
  intro p
  induction p with
  | nil => intro prev rest _; rw [ctxAfter_nil]; rfl
  | cons c p' ih =>
    intro prev rest hp
    rw [List.cons_append, subPat.eq_def]
    dsimp only
    rw [hhead prev c (p' ++ rest) (hp c (by simp))]
    rw [ih (some c) rest (fun d hd => hp d (by simp [hd])), ctxAfter_cons]
    rfl

theorem subPat_match_front (m : Matcher) (hm : MatcherPos m) (prev : Option Char)
    (mt s : List Char) (hmt : mt ≠ [])
    (hmatch : m prev (mt ++ s) = some mt.length) :
    subPat m hm prev (mt ++ s) = SENT ++ subPat m hm mt.getLast? s := by
  cases mt with
  | nil => exact absurd rfl hmt
  | cons d mt' =>
    rw [List.cons_append, subPat.eq_def]
    dsimp only
    rw [← List.cons_append, hmatch]
    dsimp only
    have ht : List.take (d :: mt').length (d :: mt' ++ s) = d :: mt' :=
      List.take_left' rfl
    have hd : List.drop (d :: mt').length (d :: mt' ++ s) = s :=
      List.drop_left' rfl
    rw [ht, hd]

/-- Characters that no secret pattern can start on: non-word characters
are never `g`, `s` or `e`. -/
theorem ne_patHead_of_not_word (k : Fin 3) (c : Char) (hc : isWordChar c = false) :
    c ≠ patHead k := by
  intro he
  subst he
  fin_cases k <;> exact absurd hc (by decide)

theorem SENT_ne_patHead (k : Fin 3) : ∀ c ∈ SENT, c ≠ patHead k := by
  fin_cases k <;> decide

/-- A clean word-free prefix, one matched secret region, and a clean
word-free suffix redact to prefix-sentinel-suffix. -/
theorem redactList_decomp (k : Fin 3) (p mt s : List Char)
    (hp : ∀ c ∈ p, isWordChar c = false)
    (hs : ∀ c ∈ s, isWordChar c = false)
    (hmt : mt ≠ [])
    (hmatch : patOf k (ctxAfter none p) (mt ++ s) = some mt.length)
    (hothers : ∀ j : Fin 3, j < k → hasMatch (patOf j) none (p ++ mt ++ s) = false) :
    redactList (p ++ mt ++ s) = p ++ SENT ++ s := by
  have hpne : ∀ (j : Fin 3), ∀ c ∈ p, c ≠ patHead j := fun j c hc =>
    ne_patHead_of_not_word j c (hp c hc)
  have hsne : ∀ (j : Fin 3), ∀ c ∈ s, c ≠ patHead j := fun j c hc =>
    ne_patHead_of_not_word j c (hs c hc)
  have hresne : ∀ (j : Fin 3), ∀ c ∈ p ++ SENT ++ s, c ≠ patHead j := by
    intro j c hc
    rcases List.mem_append.mp hc with hc' | hc'
    · rcases List.mem_append.mp hc' with h | h
      · exact hpne j c h
      · exact SENT_ne_patHead j c h
    · exact hsne j c hc'
  have transform : ∀ (j : Fin 3), patOf j (ctxAfter none p) (mt ++ s) = some mt.length →
      subPat (patOf j) (patOf_pos j) none (p ++ mt ++ s) = p ++ SENT ++ s := by
    intro j hmj
    rw [List.append_assoc]
    rw [subPat_append_clean (patOf j) (patOf_pos j) (patHead j)
      (patOf_none_of_head j) p none (mt ++ s) (hpne j)]
    rw [subPat_match_front (patOf j) (patOf_pos j) _ mt s hmt hmj]
    rw [subPat_eq_self (patOf j) (patOf_pos j) s _
      (hasMatch_false_of_heads (patOf j) (patHead j) (patOf_none_of_head j) s _ (hsne j))]
    rw [← List.append_assoc]
  have keep : ∀ (j : Fin 3),
      subPat (patOf j) (patOf_pos j) none (p ++ SENT ++ s) = p ++ SENT ++ s := by
    intro j
    exact subPat_eq_self (patOf j) (patOf_pos j) _ none
      (hasMatch_false_of_heads (patOf j) (patHead j) (patOf_none_of_head j) _ none (hresne j))
  have keepOrig : ∀ (j : Fin 3), j < k →
      subPat (patOf j) (patOf_pos j) none (p ++ mt ++ s) = p ++ mt ++ s := by
    intro j hj
    exact subPat_eq_self (patOf j) (patOf_pos j) _ none (hothers j hj)
  unfold redactList sub1 sub2 sub3
  fin_cases k
  · have t1 : subPat matchP1 matchP1_pos none (p ++ mt ++ s) = p ++ SENT ++ s :=
      transform 0 hmatch
    have t2 : subPat matchP2 matchP2_pos none (p ++ SENT ++ s) = p ++ SENT ++ s := keep 1
    have t3 : subPat matchP3 matchP3_pos none (p ++ SENT ++ s) = p ++ SENT ++ s := keep 2
    rw [t1, t2, t3]
  · have t1 : subPat matchP1 matchP1_pos none (p ++ mt ++ s) = p ++ mt ++ s :=
      keepOrig 0 (by decide)
    have t2 : subPat matchP2 matchP2_pos none (p ++ mt ++ s) = p ++ SENT ++ s :=
      transform 1 hmatch
    have t3 : subPat matchP3 matchP3_pos none (p ++ SENT ++ s) = p ++ SENT ++ s := keep 2
    rw [t1, t2, t3]
  · have t1 : subPat matchP1 matchP1_pos none (p ++ mt ++ s) = p ++ mt ++ s :=
      keepOrig 0 (by decide)
    have t2 : subPat matchP2 matchP2_pos none (p ++ mt ++ s) = p ++ mt ++ s :=
      keepOrig 1 (by decide)
    have t3 : subPat matchP3 matchP3_pos none (p ++ mt ++ s) = p ++ SENT ++ s :=
      transform 2 hmatch
    rw [t1, t2, t3]

/-! ## C10: idempotence of the redaction pass.

Character-class bridges, `takeWhile`/`dropWhile` bookkeeping, and facts
about `stripTrailingHyphens`, used to analyse one `re.sub` pass. -/

theorem alnum_word (c : Char) (h : isAlnum c = true) : isWordChar c = true := by
  unfold isWordChar
  simp [h]

theorem jwt_of_word (c : Char) (h : isWordChar c = true) : isJwtC c = true := by
  unfold isWordChar at h
  unfold isJwtC
  simp at h
  rcases h with h | h <;> simp [h]

theorem jwt_of_alnum (c : Char) (h : isAlnum c = true) : isJwtC c = true := by
  unfold isJwtC
  simp [h]

theorem tw_le (p : Char → Bool) (l : List Char) :
    (l.takeWhile p).length ≤ l.length := by
  induction l with
  | nil => simp
  | cons c cs ih =>
    by_cases hc : p c = true
    · rw [List.takeWhile_cons, if_pos hc]
      simp only [List.length_cons]
      omega
    · rw [List.takeWhile_cons, if_neg hc]
      simp

theorem tw_all (p : Char → Bool) (l : List Char) (h : l.takeWhile p = l) :
    ∀ c ∈ l, p c = true := by
  intro c hc
  rw [← h] at hc
  exact List.mem_takeWhile_imp hc

theorem tw_eq_self (p : Char → Bool) (l : List Char) (h : ∀ c ∈ l, p c = true) :
    l.takeWhile p = l := by
  induction l with
  | nil => rfl
  | cons c cs ih =>
    rw [List.takeWhile_cons, if_pos (h c (by simp))]
    rw [ih (fun d hd => h d (by simp [hd]))]

theorem tw_append_full (p : Char → Bool) (l₁ l₂ : List Char)
    (h : l₁.takeWhile p = l₁) :
    (l₁ ++ l₂).takeWhile p = l₁ ++ l₂.takeWhile p := by
  induction l₁ with
  | nil => simp
  | cons c cs ih =>
    have hc : p c = true := by
      by_contra hc
      rw [List.takeWhile_cons, if_neg hc] at h
      exact absurd h (by simp)
    have h2 : cs.takeWhile p = cs := by
      rw [List.takeWhile_cons, if_pos hc] at h
      simpa using h
    rw [List.cons_append, List.takeWhile_cons, if_pos hc, ih h2, List.cons_append]

theorem drop_tw (p : Char → Bool) (l : List Char) :
    l.drop (l.takeWhile p).length = l.dropWhile p := by
  induction l with
  | nil => rfl
  | cons c cs ih =>
    by_cases hc : p c = true
    · rw [List.takeWhile_cons, if_pos hc, List.dropWhile_cons, if_pos hc]
      simp only [List.length_cons, List.drop_succ_cons]
      exact ih
    · rw [List.takeWhile_cons, if_neg hc, List.dropWhile_cons, if_neg hc]
      rfl

theorem dw_head (p : Char → Bool) (l : List Char) (c : Char) (w : List Char)
    (h : l.dropWhile p = c :: w) : p c = false := by
  induction l with
  | nil => exact absurd h (by simp)
  | cons d ds ih =>
    rw [List.dropWhile_cons] at h
    by_cases hd : p d = true
    · rw [if_pos hd] at h
      exact ih h
    · rw [if_neg hd] at h
      injection h with h1 h2
      subst h1
      simpa using hd

theorem drop_append_le (n : Nat) (l₁ l₂ : List Char) (h : n ≤ l₁.length) :
    (l₁ ++ l₂).drop n = l₁.drop n ++ l₂ := by
  conv_lhs => rw [← List.take_append_drop n l₁, List.append_assoc]
  rw [List.drop_left' (by rw [List.length_take]; omega)]

theorem getLast?_cons_some (d : Char) (w : List Char) :
    ∃ e, (d :: w).getLast? = some e := by
  induction w generalizing d with
  | nil => exact ⟨d, rfl⟩
  | cons x xs ih =>
    rw [List.getLast?_cons_cons]
    exact ih x

theorem mem_of_getLast?_eq (l : List Char) (e : Char) (h : l.getLast? = some e) :
    e ∈ l := by
  induction l with
  | nil => simp at h
  | cons c cs ih =>
    cases cs with
    | nil =>
      simp at h
      simp [h]
    | cons d w =>
      rw [List.getLast?_cons_cons] at h
      exact List.mem_cons_of_mem c (ih h)

theorem ctxAfter_ne_nil (prev : Option Char) (l : List Char) (h : l ≠ []) :
    ctxAfter prev l = l.getLast? := by
  obtain ⟨d, w, hw⟩ : ∃ d w, l = d :: w := by
    cases l with
    | nil => exact absurd rfl h
    | cons d w => exact ⟨d, w, rfl⟩
  subst hw
  obtain ⟨e, he⟩ := getLast?_cons_some d w
  unfold ctxAfter
  rw [he]

theorem getLast?_append_right (l₁ l₂ : List Char) (h : l₂ ≠ []) :
    (l₁ ++ l₂).getLast? = l₂.getLast? := by
  induction l₁ with
  | nil => rfl
  | cons c cs ih =>
    have hne : cs ++ l₂ ≠ [] := by
      intro h0
      rcases List.append_eq_nil.mp h0 with ⟨-, h2⟩
      exact h h2
    obtain ⟨d, w, hw⟩ : ∃ d w, cs ++ l₂ = d :: w := by
      cases hcw : cs ++ l₂ with
      | nil => exact absurd hcw hne
      | cons d w => exact ⟨d, w, rfl⟩
    rw [List.cons_append, hw, List.getLast?_cons_cons, ← hw, ih]

theorem strip_decomp (l : List Char) :
    ∃ w, l = stripTrailingHyphens l ++ w ∧ ∀ c ∈ w, c = '-' := by
  refine ⟨(l.reverse.takeWhile (fun c => c = '-')).reverse, ?_, ?_⟩
  · have key : stripTrailingHyphens l ++ (l.reverse.takeWhile (fun c => c = '-')).reverse = l := by
      unfold stripTrailingHyphens
      rw [← List.reverse_append, List.takeWhile_append_dropWhile, List.reverse_reverse]
    exact key.symm
  · intro c hc
    rw [List.mem_reverse] at hc
    have := List.mem_takeWhile_imp hc
    simpa using this

theorem strip_eq_nil (l : List Char) (h : stripTrailingHyphens l = []) :
    ∀ c ∈ l, c = '-' := by
  unfold stripTrailingHyphens at h
  have h2 : l.reverse.dropWhile (fun c => c = '-') = [] := by
    have := congrArg List.reverse h
    simpa using this
  intro c hc
  have h3 := List.dropWhile_eq_nil_iff.mp h2
  simpa using h3 c (List.mem_reverse.mpr hc)

theorem strip_getLast (l : List Char) (h : stripTrailingHyphens l ≠ []) :
    ∃ e, (stripTrailingHyphens l).getLast? = some e ∧ e ≠ '-' ∧ e ∈ l := by
  unfold stripTrailingHyphens at h ⊢
  cases hdw : l.reverse.dropWhile (fun c => c = '-') with
  | nil => rw [hdw] at h; simp at h
  | cons e w =>
    refine ⟨e, ?_, ?_, ?_⟩
    · rw [List.reverse_cons, getLast?_append_right w.reverse [e] (by simp)]
      rfl
    · have := dw_head _ _ _ _ hdw
      simpa using this
    · have hsplit := List.takeWhile_append_dropWhile
        (p := fun c => c = '-') (l := l.reverse)
      have he : e ∈ l.reverse := by
        rw [← hsplit, hdw]
        simp
      exact List.mem_reverse.mp he

/-- A list that is a prefix of `u ++ c :: t` and avoids `c` is a prefix
of `u` alone: the pattern literals and greedy-run characters of a match
never cross into the sentinel that a substitution inserted. -/
theorem pre_of_pre_append (lits u : List Char) (c : Char) (t : List Char)
    (hpre : lits <+: u ++ c :: t) (hc : c ∉ lits) : lits <+: u := by
  obtain ⟨w, hw⟩ := hpre
  have h1 : lits = u.take lits.length ++ (c :: t).take (lits.length - u.length) := by
    have h0 : (u ++ c :: t).take lits.length = lits := by
      rw [← hw]
      exact List.take_left' rfl
    conv_lhs => rw [← h0]
    rw [List.take_append_eq_append_take]
  by_cases hlen : lits.length ≤ u.length
  · have hz : lits.length - u.length = 0 := by omega
    rw [hz] at h1
    simp only [List.take_zero, List.append_nil] at h1
    refine ⟨u.drop lits.length, ?_⟩
    conv_rhs => rw [← List.take_append_drop lits.length u]
    rw [← h1]
  · exfalso
    apply hc
    rw [h1]
    refine List.mem_append.mpr (Or.inr ?_)
    cases h3 : lits.length - u.length with
    | zero => omega
    | succ k =>
      simp [List.take_succ_cons]

/-- Forward characterization of a `matchKey` match: the text splits as
literals, an alphanumeric run of length at least 20, and a remainder that
starts the trailing word break. -/
theorem matchKey_some_decomp (lits : List Char) (prev : Option Char)
    (xs : List Char) (n : Nat) (h : matchKey lits prev xs = some n) :
    ∃ R s, xs = lits ++ R ++ s ∧ boundaryOK prev = true ∧
      (∀ c ∈ R, isAlnum c = true) ∧ 20 ≤ R.length ∧
      wordBreakAfter s = true ∧ (∀ e w, s = e :: w → isAlnum e = false) ∧
      n = lits.length + R.length := by
  unfold matchKey at h
  split at h
  · rename_i hcond
    obtain ⟨hbp, hpre⟩ := hcond
    obtain ⟨r0, hr0⟩ := hpre
    dsimp only at h
    split at h
    · rename_i hinner
      injection h with hn
      have hdrop : xs.drop lits.length = r0 := by
        rw [← hr0]
        exact List.drop_left' rfl
      rw [hdrop] at hinner hn
      refine ⟨r0.takeWhile isAlnum, r0.dropWhile isAlnum, ?_, hbp, ?_, hinner.1, ?_, ?_, ?_⟩
      · rw [← hr0, List.append_assoc, List.takeWhile_append_dropWhile]
      · intro c hc
        exact List.mem_takeWhile_imp hc
      · rw [drop_tw] at hinner
        exact hinner.2
      · intro e w hw
        have := dw_head isAlnum r0 e w hw
        exact this
      · exact hn.symm
    · exact absurd h (by simp)
  · exact absurd h (by simp)

/-- Reverse construction of a `matchKey` match from its pieces. -/
theorem matchKey_build (lits : List Char) (prev : Option Char) (R s : List Char)
    (hbp : boundaryOK prev = true)
    (hR : ∀ c ∈ R, isAlnum c = true) (h20 : 20 ≤ R.length)
    (hs : wordBreakAfter s = true) :
    matchKey lits prev (lits ++ R ++ s) = some (lits.length + R.length) := by
  unfold matchKey
  rw [List.append_assoc]
  rw [if_pos ⟨hbp, ⟨R ++ s, rfl⟩⟩]
  dsimp only
  rw [List.drop_left' rfl]
  have twR : (R ++ s).takeWhile isAlnum = R := by
    rw [tw_append_full isAlnum R s (tw_eq_self isAlnum R hR)]
    cases s with
    | nil => simp
    | cons e w =>
      have hw : (!isWordChar e) = true := hs
      have he : isAlnum e = false := by
        cases hae : isAlnum e with
        | false => rfl
        | true =>
          rw [alnum_word e hae] at hw
          exact absurd hw (by simp)
      rw [List.takeWhile_cons, if_neg (by simp [he])]
      simp
  rw [twR, List.drop_left' rfl]
  rw [if_pos ⟨h20, hs⟩]

/-- Reader transfer for the key patterns: if `matchKey` fails at a
position whose suffix continues with an alphanumeric character opening a
redacted region, it still fails after that region is replaced by the
sentinel, provided the character context at the region start is a word
boundary (which the replaced match guarantees). -/
theorem matchKey_RT (lits : List Char) (hlt : '<' ∉ lits)
    (prev : Option Char) (u : List Char) (b : Char) (t t' : List Char)
    (hb : isAlnum b = true)
    (h1 : matchKey lits prev (u ++ b :: t) = none)
    (hbd : boundaryOK (ctxAfter prev u) = true) :
    matchKey lits prev (u ++ '<' :: t') = none := by
  cases hres : matchKey lits prev (u ++ '<' :: t') with
  | none => rfl
  | some n =>
    exfalso
    obtain ⟨R, s, hxs, hbp, hR, h20, hwb, hshead, hn⟩ :=
      matchKey_some_decomp lits prev (u ++ '<' :: t') n hres
    have hltR : '<' ∉ R := by
      intro hmem
      have := hR '<' hmem
      exact absurd this (by decide)
    have hltP : '<' ∉ lits ++ R := by
      intro hmem
      rcases List.mem_append.mp hmem with hm | hm
      · exact hlt hm
      · exact hltR hm
    have hpreP : lits ++ R <+: u ++ '<' :: t' := ⟨s, hxs.symm⟩
    have hpreu : lits ++ R <+: u := pre_of_pre_append (lits ++ R) u '<' t' hpreP hltP
    obtain ⟨v, hv⟩ := hpreu
    have hs_eq : s = v ++ '<' :: t' := by
      have h2 : (lits ++ R) ++ s = (lits ++ R) ++ (v ++ '<' :: t') := by
        rw [← List.append_assoc, hv]
        exact hxs.symm
      exact List.append_cancel_left h2
    cases v with
    | nil =>
      -- the match ends exactly where the sentinel starts: its last run
      -- character is a word character, contradicting the boundary there
      have hune : u = lits ++ R := by rw [← hv]; simp
      have hRne : R ≠ [] := by
        intro h0
        rw [h0] at h20
        simp at h20
      obtain ⟨d, w0, hdw0⟩ : ∃ d w0, R = d :: w0 := by
        cases R with
        | nil => exact absurd rfl hRne
        | cons d w0 => exact ⟨d, w0, rfl⟩
      obtain ⟨e, he⟩ : ∃ e, R.getLast? = some e := by
        rw [hdw0]
        exact getLast?_cons_some d w0
      have hctx : ctxAfter prev u = some e := by
        rw [hune, ctxAfter_ne_nil prev _ (by simp [hdw0]),
          getLast?_append_right lits R (by rw [hdw0]; simp)]
        exact he
      have hemem : e ∈ R := mem_of_getLast?_eq R e he
      have hew : isWordChar e = true := alnum_word e (hR e hemem)
      rw [hctx] at hbd
      have : (!isWordChar e) = true := hbd
      rw [hew] at this
      exact absurd this (by simp)
    | cons d v' =>
      -- the run stops strictly inside the clean region: the same match
      -- exists before the substitution, contradicting the scan failure
      have hd : isWordChar d = false := by
        have : (!isWordChar d) = true := by
          rw [hs_eq] at hwb
          exact hwb
        simpa using this
      have hbuild := matchKey_build lits prev R (d :: (v' ++ b :: t)) hbp hR h20
        (by
          have : wordBreakAfter (d :: (v' ++ b :: t)) = (!isWordChar d) := rfl
          rw [this, hd]
          rfl)
      have hstring : lits ++ R ++ (d :: (v' ++ b :: t)) = u ++ b :: t := by
        rw [← hv]
        simp
      rw [hstring] at hbuild
      rw [hbuild] at h1
      exact absurd h1 (by simp)

/-- Reverse construction of a `matchP3` match from its three segments. -/
theorem matchP3_build (prev : Option Char) (A B C s3 : List Char)
    (hbp : boundaryOK prev = true)
    (hA : A ≠ []) (hB : B ≠ [])
    (hAj : ∀ c ∈ A, isJwtC c = true) (hBj : ∀ c ∈ B, isJwtC c = true)
    (hCj : ∀ c ∈ C, isJwtC c = true)
    (hs3 : ∀ e w, s3 = e :: w → isJwtC e = false)
    (hC : stripTrailingHyphens C ≠ []) :
    matchP3 prev ('e' :: 'y' :: 'J' :: (A ++ '.' :: (B ++ '.' :: (C ++ s3)))) =
      some (3 + A.length + 1 + B.length + 1 + (stripTrailingHyphens C).length) := by
  unfold matchP3
  rw [if_pos ⟨hbp, ⟨A ++ '.' :: (B ++ '.' :: (C ++ s3)), rfl⟩⟩]
  dsimp only
  rw [show ('e' :: 'y' :: 'J' :: (A ++ '.' :: (B ++ '.' :: (C ++ s3)))).drop 3
      = A ++ '.' :: (B ++ '.' :: (C ++ s3)) from rfl]
  have twA : (A ++ '.' :: (B ++ '.' :: (C ++ s3))).takeWhile isJwtC = A := by
    rw [tw_append_full isJwtC A _ (tw_eq_self isJwtC A hAj)]
    rw [List.takeWhile_cons, if_neg (by decide)]
    simp
  rw [twA, List.drop_left' rfl]
  rw [if_pos ⟨fun h0 => hA (List.length_eq_zero.mp h0), rfl⟩]
  rw [show ('.' :: (B ++ '.' :: (C ++ s3))).drop 1 = B ++ '.' :: (C ++ s3) from rfl]
  have twB : (B ++ '.' :: (C ++ s3)).takeWhile isJwtC = B := by
    rw [tw_append_full isJwtC B _ (tw_eq_self isJwtC B hBj)]
    rw [List.takeWhile_cons, if_neg (by decide)]
    simp
  rw [twB, List.drop_left' rfl]
  rw [if_pos ⟨fun h0 => hB (List.length_eq_zero.mp h0), rfl⟩]
  rw [show ('.' :: (C ++ s3)).drop 1 = C ++ s3 from rfl]
  have twC : (C ++ s3).takeWhile isJwtC = C := by
    rw [tw_append_full isJwtC C _ (tw_eq_self isJwtC C hCj)]
    cases hs : s3 with
    | nil => simp
    | cons e w =>
      rw [List.takeWhile_cons, if_neg (by simp [hs3 e w hs])]
      simp
  rw [twC]
  rw [if_pos (fun h0 => hC (List.length_eq_zero.mp h0))]

/-- Forward characterization of a `matchP3` match: header, two dotted
jwt-class segments, a third segment, and a remainder that cannot extend
the third run. -/
theorem matchP3_some_decomp (prev : Option Char) (xs : List Char) (n : Nat)
    (h : matchP3 prev xs = some n) :
    ∃ A B C s3, xs = 'e' :: 'y' :: 'J' :: (A ++ '.' :: (B ++ '.' :: (C ++ s3))) ∧
      boundaryOK prev = true ∧ A ≠ [] ∧ B ≠ [] ∧
      (∀ c ∈ A, isJwtC c = true) ∧ (∀ c ∈ B, isJwtC c = true) ∧
      (∀ c ∈ C, isJwtC c = true) ∧
      (∀ e w, s3 = e :: w → isJwtC e = false) ∧
      stripTrailingHyphens C ≠ [] ∧
      n = 3 + A.length + 1 + B.length + 1 + (stripTrailingHyphens C).length := by
  unfold matchP3 at h
  split at h
  · rename_i hcond
    obtain ⟨hbp, hpre⟩ := hcond
    obtain ⟨r0, hr0⟩ := hpre
    dsimp only at h
    have hdrop3 : xs.drop 3 = r0 := by
      rw [← hr0]
      exact List.drop_left' rfl
    rw [hdrop3] at h
    split at h
    · rename_i hc1
      rw [drop_tw isJwtC r0] at h hc1
      obtain ⟨d1, u1, hdw1⟩ : ∃ d1 u1, r0.dropWhile isJwtC = d1 :: u1 := by
        cases hq : r0.dropWhile isJwtC with
        | nil => rw [hq] at hc1; exact absurd hc1.2 (by simp)
        | cons d1 u1 => exact ⟨d1, u1, rfl⟩
      have hd1 : d1 = '.' := by
        rw [hdw1] at hc1
        have := hc1.2
        simpa using this
      subst hd1
      rw [hdw1] at h
      rw [show (('.' : Char) :: u1).drop 1 = u1 from rfl] at h
      split at h
      · rename_i hc2
        rw [drop_tw isJwtC u1] at h hc2
        obtain ⟨d2, u2, hdw2⟩ : ∃ d2 u2, u1.dropWhile isJwtC = d2 :: u2 := by
          cases hq : u1.dropWhile isJwtC with
          | nil => rw [hq] at hc2; exact absurd hc2.2 (by simp)
          | cons d2 u2 => exact ⟨d2, u2, rfl⟩
        have hd2 : d2 = '.' := by
          rw [hdw2] at hc2
          have := hc2.2
          simpa using this
        subst hd2
        rw [hdw2] at h
        rw [show (('.' : Char) :: u2).drop 1 = u2 from rfl] at h
        split at h
        · rename_i hc3
          injection h with hn
          have hr0eq : r0 = r0.takeWhile isJwtC ++
              '.' :: (u1.takeWhile isJwtC ++
                '.' :: (u2.takeWhile isJwtC ++ u2.dropWhile isJwtC)) := by
            conv_lhs => rw [← List.takeWhile_append_dropWhile (p := isJwtC) (l := r0)]
            rw [hdw1]
            congr 2
            conv_lhs => rw [← List.takeWhile_append_dropWhile (p := isJwtC) (l := u1)]
            rw [hdw2]
            congr 2
            exact (List.takeWhile_append_dropWhile ..).symm
          refine ⟨r0.takeWhile isJwtC, u1.takeWhile isJwtC, u2.takeWhile isJwtC,
            u2.dropWhile isJwtC, ?_, hbp, ?_, ?_, ?_, ?_, ?_, ?_, ?_, ?_⟩
          · rw [← hr0]
            conv_lhs => rw [hr0eq]
            rfl
          · exact fun h0 => hc1.1 (by rw [h0]; rfl)
          · exact fun h0 => hc2.1 (by rw [h0]; rfl)
          · exact fun c hc => List.mem_takeWhile_imp hc
          · exact fun c hc => List.mem_takeWhile_imp hc
          · exact fun c hc => List.mem_takeWhile_imp hc
          · exact fun e w hw => dw_head isJwtC u2 e w hw
          · exact fun h0 => hc3 (by rw [h0]; rfl)
          · exact hn.symm
        · exact absurd h (by simp)
      · exact absurd h (by simp)
    · exact absurd h (by simp)
  · exact absurd h (by simp)

/-- Reader transfer for the JWT pattern: if `matchP3` fails at a position
whose suffix continues with an alphanumeric character opening a redacted
region, it still fails after that region is replaced by the sentinel. -/
theorem matchP3_RT (prev : Option Char) (u : List Char) (b : Char) (t t' : List Char)
    (hb : isAlnum b = true)
    (h1 : matchP3 prev (u ++ b :: t) = none) :
    matchP3 prev (u ++ '<' :: t') = none := by
  cases hres : matchP3 prev (u ++ '<' :: t') with
  | none => rfl
  | some n =>
    exfalso
    obtain ⟨A, B, C, s3, hxs, hbp, hA, hB, hAj, hBj, hCj, hs3, hC, hn⟩ :=
      matchP3_some_decomp prev (u ++ '<' :: t') n hres
    set P := ('e' :: 'y' :: 'J' :: (A ++ '.' :: (B ++ '.' :: C)) : List Char) with hP
    have hjne : ∀ c : Char, isJwtC c = true → c ≠ '<' := by
      intro c hc he
      rw [he] at hc
      exact absurd hc (by decide)
    have hPs3 : P ++ s3 = u ++ '<' :: t' := by
      rw [hP, hxs]
      simp [List.append_assoc]
    have hltP : '<' ∉ P := by
      intro hmem
      rw [hP] at hmem
      rcases List.mem_cons.mp hmem with h | hmem2
      · exact absurd h (by decide)
      rcases List.mem_cons.mp hmem2 with h | hmem3
      · exact absurd h (by decide)
      rcases List.mem_cons.mp hmem3 with h | hmem4
      · exact absurd h (by decide)
      rcases List.mem_append.mp hmem4 with h | hmem5
      · exact hjne '<' (hAj '<' h) rfl
      rcases List.mem_cons.mp hmem5 with h | hmem6
      · exact absurd h (by decide)
      rcases List.mem_append.mp hmem6 with h | hmem7
      · exact hjne '<' (hBj '<' h) rfl
      rcases List.mem_cons.mp hmem7 with h | hmem8
      · exact absurd h (by decide)
      · exact hjne '<' (hCj '<' hmem8) rfl
    have hPpre : P <+: u := pre_of_pre_append P u '<' t' ⟨s3, hPs3⟩ hltP
    obtain ⟨v, hv⟩ := hPpre
    have hs3eq : s3 = v ++ '<' :: t' := by
      have h2 : P ++ s3 = P ++ (v ++ '<' :: t') := by
        rw [← List.append_assoc, hv]
        exact hPs3
      exact List.append_cancel_left h2
    cases v with
    | nil =>
      have hu : u = P := by
        rw [← hv]
        simp
      have hCb : ∀ c ∈ C ++ b :: t.takeWhile isJwtC, isJwtC c = true := by
        intro c hc
        rcases List.mem_append.mp hc with h | h
        · exact hCj c h
        · rcases List.mem_cons.mp h with h | h
          · rw [h]
            exact jwt_of_alnum b hb
          · exact List.mem_takeWhile_imp h
      have hstrip : stripTrailingHyphens (C ++ b :: t.takeWhile isJwtC) ≠ [] := by
        intro h0
        have hall := strip_eq_nil _ h0
        have hbh : b = '-' := hall b (by simp)
        rw [hbh] at hb
        exact absurd hb (by decide)
      have hs3h : ∀ e w, t.dropWhile isJwtC = e :: w → isJwtC e = false :=
        fun e w hw => dw_head isJwtC t e w hw
      have hbuild := matchP3_build prev A B (C ++ b :: t.takeWhile isJwtC)
        (t.dropWhile isJwtC) hbp hA hB hAj hBj hCb hs3h hstrip
      have hstr : 'e' :: 'y' :: 'J' :: (A ++ '.' :: (B ++ '.' ::
          ((C ++ b :: t.takeWhile isJwtC) ++ t.dropWhile isJwtC))) = u ++ b :: t := by
        have hct : (C ++ b :: t.takeWhile isJwtC) ++ t.dropWhile isJwtC = C ++ b :: t := by
          rw [List.append_assoc, List.cons_append, List.takeWhile_append_dropWhile]
        rw [hct, hu, hP]
        simp [List.append_assoc]
      rw [hstr] at hbuild
      rw [hbuild] at h1
      exact absurd h1 (by simp)
    | cons d v' =>
      have hdj : isJwtC d = false := by
        apply hs3 d (v' ++ '<' :: t')
        rw [hs3eq]
        rfl
      have hs3h : ∀ e w, (d :: (v' ++ b :: t)) = e :: w → isJwtC e = false := by
        intro e w hw
        injection hw with h1' h2'
        rw [← h1']
        exact hdj
      have hbuild := matchP3_build prev A B C (d :: (v' ++ b :: t)) hbp hA hB
        hAj hBj hCj hs3h hC
      have hstr : 'e' :: 'y' :: 'J' :: (A ++ '.' :: (B ++ '.' ::
          (C ++ (d :: (v' ++ b :: t))))) = u ++ b :: t := by
        rw [← hv, hP]
        simp [List.append_assoc]
      rw [hstr] at hbuild
      rw [hbuild] at h1
      exact absurd h1 (by simp)

theorem matchKey_some_spec (lits : List Char) (prev : Option Char) (xs : List Char)
    (n : Nat) (h : matchKey lits prev xs = some n) :
    boundaryOK prev = true ∧ n ≤ xs.length ∧ wordBreakAfter (xs.drop n) = true := by
  obtain ⟨R, s, hxs, hbp, hR, h20, hwb, hshead, hn⟩ :=
    matchKey_some_decomp lits prev xs n h
  subst hxs
  subst hn
  refine ⟨hbp, ?_, ?_⟩
  · simp [List.length_append]
  · rw [List.drop_left' (by simp)]
    exact hwb

theorem matchP3_some_spec (prev : Option Char) (xs : List Char) (n : Nat)
    (h : matchP3 prev xs = some n) :
    boundaryOK prev = true ∧ n ≤ xs.length ∧ wordBreakAfter (xs.drop n) = true := by
  obtain ⟨A, B, C, s3, hxs, hbp, hA, hB, hAj, hBj, hCj, hs3, hC, hn⟩ :=
    matchP3_some_decomp prev xs n h
  obtain ⟨wC, hCw, hwall⟩ := strip_decomp C
  subst hxs
  subst hn
  have hsplit : ('e' :: 'y' :: 'J' :: (A ++ '.' :: (B ++ '.' :: (C ++ s3))))
      = ('e' :: 'y' :: 'J' :: (A ++ '.' :: (B ++ '.' :: stripTrailingHyphens C)))
        ++ (wC ++ s3) := by
    conv_lhs => rw [hCw]
    simp [List.append_assoc]
  refine ⟨hbp, ?_, ?_⟩
  · rw [hsplit]
    simp [List.length_append]
    omega
  · rw [hsplit]
    rw [List.drop_left' (by simp [List.length_append]; omega)]
    cases hwc : wC with
    | cons c w' =>
      have hch : c = '-' := hwall c (by rw [hwc]; simp)
      rw [List.cons_append, hch]
      have : wordBreakAfter ('-' :: (w' ++ s3)) = (!isWordChar '-') := rfl
      rw [this]
      decide
    | nil =>
      rw [List.nil_append]
      cases hs3c : s3 with
      | nil => rfl
      | cons e w =>
        have hje : isJwtC e = false := hs3 e w hs3c
        have hwe : isWordChar e = false := by
          cases hii : isWordChar e with
          | false => rfl
          | true => exact absurd (jwt_of_word e hii) (by simp [hje])
        have : wordBreakAfter (e :: w) = (!isWordChar e) := rfl
        rw [this, hwe]
        rfl

theorem matchKey_some_head (a : Char) (lits' : List Char) (prev : Option Char)
    (c : Char) (rest : List Char) (n : Nat)
    (h : matchKey (a :: lits') prev (c :: rest) = some n) : c = a := by
  by_contra hc
  rw [matchKey_none_of_head (a :: lits') a lits' rfl prev c rest hc] at h
  exact absurd h (by simp)

theorem matchP3_some_head (prev : Option Char) (c : Char) (rest : List Char)
    (n : Nat) (h : matchP3 prev (c :: rest) = some n) : c = 'e' := by
  by_contra hc
  rw [matchP3_none_of_head prev c rest hc] at h
  exact absurd h (by simp)

/-- Scanning a region whose characters can never start a match only moves
the context forward. -/
theorem hasMatch_append_clean (m : Matcher) (aM : Char)
    (hheadNone : ∀ prev c rest, c ≠ aM → m prev (c :: rest) = none) :
    ∀ (a : List Char) (prev : Option Char) (w : List Char), (∀ c ∈ a, c ≠ aM) →
    hasMatch m prev (a ++ w) = hasMatch m (ctxAfter prev a) w := by
  intro a
  induction a with
  | nil =>
    intro prev w _
    rw [ctxAfter_nil]
    rfl
  | cons c a' ih =>
    intro prev w ha
    rw [List.cons_append]
    simp only [hasMatch]
    rw [hheadNone prev c (a' ++ w) (ha c (by simp))]
    rw [ih (some c) w (fun d hd => ha d (by simp [hd])), ctxAfter_cons]
    simp

/-- A scan with no match anywhere has no match from any later position,
with the in-string context at that position. -/
theorem hasMatch_append_false_right (m : Matcher) :
    ∀ (a : List Char) (prev : Option Char) (w : List Char),
    hasMatch m prev (a ++ w) = false → hasMatch m (ctxAfter prev a) w = false := by
  intro a
  induction a with
  | nil =>
    intro prev w h
    rw [ctxAfter_nil]
    simpa using h
  | cons c a' ih =>
    intro prev w h
    rw [List.cons_append] at h
    simp only [hasMatch, Bool.or_eq_false_iff] at h
    rw [ctxAfter_cons]
    exact ih (some c) w h.2

/-- One substitution pass either leaves the text unchanged or splits it
as clean prefix, first matched region and remainder, with the output
rebuilt from the sentinel and the recursive pass on the remainder. -/
theorem subPat_decomp (q : Matcher) (hq : MatcherPos q)
    (hqlen : ∀ prev xs n, q prev xs = some n → n ≤ xs.length) :
    ∀ (xs : List Char) (prev : Option Char),
      subPat q hq prev xs = xs ∨
      ∃ u mt r2, xs = u ++ mt ++ r2 ∧ mt ≠ [] ∧
        q (ctxAfter prev u) (mt ++ r2) = some mt.length ∧
        subPat q hq prev xs = u ++ SENT ++ subPat q hq (ctxAfter (ctxAfter prev u) mt) r2 := by
  intro xs
  induction xs with
  | nil =>
    intro prev
    left
    rw [subPat.eq_def]
  | cons c rest ih =>
    intro prev
    cases hmm : q prev (c :: rest) with
    | none =>
      rcases ih (some c) with hl | ⟨u', mt, r2, hxs, hmt, hmatch, hout⟩
      · left
        rw [subPat.eq_def]
        dsimp only
        rw [hmm]
        dsimp only
        rw [hl]
      · right
        refine ⟨c :: u', mt, r2, ?_, hmt, ?_, ?_⟩
        · rw [List.cons_append, List.cons_append, ← hxs]
        · rw [ctxAfter_cons]
          exact hmatch
        · rw [subPat.eq_def]
          dsimp only
          rw [hmm]
          dsimp only
          rw [hout, ctxAfter_cons, List.cons_append, List.cons_append]
    | some n =>
      right
      have hpos := hq prev (c :: rest) n hmm
      have hlen := hqlen prev (c :: rest) n hmm
      have htne : (c :: rest).take n ≠ [] := by
        intro h0
        have := congrArg List.length h0
        rw [List.length_take] at this
        simp at this
        omega
      refine ⟨[], (c :: rest).take n, (c :: rest).drop n, ?_, htne, ?_, ?_⟩
      · rw [List.nil_append, List.take_append_drop]
      · rw [ctxAfter_nil, List.take_append_drop, hmm]
        congr 1
        rw [List.length_take]
        simp at hlen ⊢
        omega
      · rw [subPat.eq_def]
        dsimp only
        rw [hmm]
        dsimp only
        rw [List.nil_append]
        have hctx : ctxAfter (ctxAfter prev []) ((c :: rest).take n)
            = ((c :: rest).take n).getLast? := by
          rw [ctxAfter_nil]
          exact ctxAfter_ne_nil prev _ htne
        rw [hctx]

/-- After one substitution pass of a pattern, the pattern has no further
match anywhere in the output: replacing every leftmost match with the
sentinel cannot create a new occurrence of the same pattern. -/
theorem hasMatch_subPat_self (m : Matcher) (hm : MatcherPos m) (aM : Char)
    (haM : isWordChar aM = true)
    (hheadNone : ∀ prev c rest, c ≠ aM → m prev (c :: rest) = none)
    (hheadAl : ∀ prev c rest n, m prev (c :: rest) = some n → isAlnum c = true)
    (hlen : ∀ prev xs n, m prev xs = some n → n ≤ xs.length)
    (hend : ∀ prev xs n, m prev xs = some n → wordBreakAfter (xs.drop n) = true)
    (hbd : ∀ prev xs n, m prev xs = some n → boundaryOK prev = true)
    (hRT : ∀ prev u b t t', isAlnum b = true → m prev (u ++ b :: t) = none →
        boundaryOK (ctxAfter prev u) = true → m prev (u ++ '<' :: t') = none)
    (hSENT : ∀ c ∈ SENT, c ≠ aM) :
    ∀ (xs : List Char) (prev : Option Char),
      hasMatch m prev (subPat m hm prev xs) = false := by
  have main : ∀ (N : Nat) (xs : List Char), xs.length ≤ N → ∀ prev,
      hasMatch m prev (subPat m hm prev xs) = false := by
    intro N
    induction N with
    | zero =>
      intro xs hxs prev
      have hnil : xs = [] := List.length_eq_zero.mp (Nat.le_zero.mp hxs)
      subst hnil
      rw [subPat.eq_def]
      rfl
    | succ N ih =>
      intro xs hxs prev
      cases xs with
      | nil =>
        rw [subPat.eq_def]
        rfl
      | cons c rest =>
        cases hmm : m prev (c :: rest) with
        | none =>
          rw [subPat.eq_def]
          dsimp only
          rw [hmm]
          dsimp only
          simp only [hasMatch]
          have htail : hasMatch m (some c) (subPat m hm (some c) rest) = false := by
            apply ih rest ?_ (some c)
            have := hxs
            simp at this
            omega
          have hhead : m prev (c :: subPat m hm (some c) rest) = none := by
            rcases subPat_decomp m hm hlen rest (some c) with
              hl | ⟨u', mt, r2, hxs2, hmt, hmatch, hout⟩
            · rw [hl]
              exact hmm
            · obtain ⟨b, mt', hbmt⟩ : ∃ b mt', mt = b :: mt' := by
                cases mt with
                | nil => exact absurd rfl hmt
                | cons b mt' => exact ⟨b, mt', rfl⟩
              have hbal : isAlnum b = true := by
                apply hheadAl (ctxAfter (some c) u') b (mt' ++ r2) mt.length
                rw [← List.cons_append, ← hbmt]
                exact hmatch
              have hbd2 : boundaryOK (ctxAfter prev (c :: u')) = true := by
                rw [ctxAfter_cons]
                exact hbd _ _ _ hmatch
              have hpass1 : m prev ((c :: u') ++ b :: (mt' ++ r2)) = none := by
                have hsh : (c :: u') ++ b :: (mt' ++ r2) = c :: rest := by
                  rw [hxs2, hbmt]
                  simp
                rw [hsh]
                exact hmm
              have hrt := hRT prev (c :: u') b (mt' ++ r2)
                (SENT.drop 1 ++ subPat m hm (ctxAfter (ctxAfter (some c) u') mt) r2)
                hbal hpass1 hbd2
              have hshape : c :: subPat m hm (some c) rest =
                  (c :: u') ++ '<' :: (SENT.drop 1 ++
                    subPat m hm (ctxAfter (ctxAfter (some c) u') mt) r2) := by
                rw [hout]
                simp [SENT]
              rw [hshape]
              exact hrt
          rw [hhead, htail]
          rfl
        | some n =>
          rw [subPat.eq_def]
          dsimp only
          rw [hmm]
          dsimp only
          rw [hasMatch_append_clean m aM hheadNone SENT prev _ hSENT]
          rw [show ctxAfter prev SENT = some '>' from rfl]
          have hwb := hend prev (c :: rest) n hmm
          cases hys : (c :: rest).drop n with
          | nil =>
            rw [subPat.eq_def]
            rfl
          | cons d ys' =>
            have hdnw : isWordChar d = false := by
              rw [hys] at hwb
              have hv : (!isWordChar d) = true := hwb
              simpa using hv
            have hdne : d ≠ aM := by
              intro he
              rw [he, haM] at hdnw
              exact absurd hdnw (by simp)
            have hnone2 : m (((c :: rest).take n).getLast?) (d :: ys') = none :=
              hheadNone _ d ys' hdne
            rw [subPat.eq_def]
            dsimp only
            rw [hnone2]
            dsimp only
            simp only [hasMatch]
            rw [hheadNone (some '>') d _ hdne]
            have hlt : ys'.length ≤ N := by
              have h1 := hlen prev (c :: rest) n hmm
              have h2 := hm prev (c :: rest) n hmm
              have h3 := congrArg List.length hys
              simp [List.length_drop] at h3
              have h4 := hxs
              simp at h1 h4
              omega
            rw [ih ys' hlt (some d)]
            rfl
  intro xs prev
  exact main xs.length xs (le_refl _) prev

/-- A substitution pass of one pattern preserves the absence of matches
of another pattern: the sentinel and the word-break context it inherits
cannot create an occurrence of a different secret pattern either. -/
theorem hasMatch_subPat_other (p q : Matcher) (hq : MatcherPos q) (aP : Char)
    (haP : isWordChar aP = true)
    (hpHeadNone : ∀ prev c rest, c ≠ aP → p prev (c :: rest) = none)
    (hqheadAl : ∀ prev c rest n, q prev (c :: rest) = some n → isAlnum c = true)
    (hqlen : ∀ prev xs n, q prev xs = some n → n ≤ xs.length)
    (hqend : ∀ prev xs n, q prev xs = some n → wordBreakAfter (xs.drop n) = true)
    (hqbd : ∀ prev xs n, q prev xs = some n → boundaryOK prev = true)
    (hpRT : ∀ prev u b t t', isAlnum b = true → p prev (u ++ b :: t) = none →
        boundaryOK (ctxAfter prev u) = true → p prev (u ++ '<' :: t') = none)
    (hSENT : ∀ c ∈ SENT, c ≠ aP) :
    ∀ (xs : List Char) (prev : Option Char), hasMatch p prev xs = false →
      hasMatch p prev (subPat q hq prev xs) = false := by
  have main : ∀ (N : Nat) (xs : List Char), xs.length ≤ N → ∀ prev,
      hasMatch p prev xs = false →
      hasMatch p prev (subPat q hq prev xs) = false := by
    intro N
    induction N with
    | zero =>
      intro xs hxs prev hpm
      have hnil : xs = [] := List.length_eq_zero.mp (Nat.le_zero.mp hxs)
      subst hnil
      rw [subPat.eq_def]
      rfl
    | succ N ih =>
      intro xs hxs prev hpm
      cases xs with
      | nil =>
        rw [subPat.eq_def]
        rfl
      | cons c rest =>
        have hpm' : p prev (c :: rest) = none ∧ hasMatch p (some c) rest = false := by
          simp only [hasMatch, Bool.or_eq_false_iff] at hpm
          refine ⟨?_, hpm.2⟩
          cases hc : p prev (c :: rest) with
          | none => rfl
          | some k =>
            rw [hc] at hpm
            exact absurd hpm.1 (by simp)
        cases hmm : q prev (c :: rest) with
        | none =>
          rw [subPat.eq_def]
          dsimp only
          rw [hmm]
          dsimp only
          simp only [hasMatch]
          have htail : hasMatch p (some c) (subPat q hq (some c) rest) = false := by
            apply ih rest ?_ (some c) hpm'.2
            have := hxs
            simp at this
            omega
          have hhead : p prev (c :: subPat q hq (some c) rest) = none := by
            rcases subPat_decomp q hq hqlen rest (some c) with
              hl | ⟨u', mt, r2, hxs2, hmt, hmatch, hout⟩
            · rw [hl]
              exact hpm'.1
            · obtain ⟨b, mt', hbmt⟩ : ∃ b mt', mt = b :: mt' := by
                cases mt with
                | nil => exact absurd rfl hmt
                | cons b mt' => exact ⟨b, mt', rfl⟩
              have hbal : isAlnum b = true := by
                apply hqheadAl (ctxAfter (some c) u') b (mt' ++ r2) mt.length
                rw [← List.cons_append, ← hbmt]
                exact hmatch
              have hbd2 : boundaryOK (ctxAfter prev (c :: u')) = true := by
                rw [ctxAfter_cons]
                exact hqbd _ _ _ hmatch
              have hpass1 : p prev ((c :: u') ++ b :: (mt' ++ r2)) = none := by
                have hsh : (c :: u') ++ b :: (mt' ++ r2) = c :: rest := by
                  rw [hxs2, hbmt]
                  simp
                rw [hsh]
                exact hpm'.1
              have hrt := hpRT prev (c :: u') b (mt' ++ r2)
                (SENT.drop 1 ++ subPat q hq (ctxAfter (ctxAfter (some c) u') mt) r2)
                hbal hpass1 hbd2
              have hshape : c :: subPat q hq (some c) rest =
                  (c :: u') ++ '<' :: (SENT.drop 1 ++
                    subPat q hq (ctxAfter (ctxAfter (some c) u') mt) r2) := by
                rw [hout]
                simp [SENT]
              rw [hshape]
              exact hrt
          rw [hhead, htail]
          rfl
        | some n =>
          rw [subPat.eq_def]
          dsimp only
          rw [hmm]
          dsimp only
          rw [hasMatch_append_clean p aP hpHeadNone SENT prev _ hSENT]
          rw [show ctxAfter prev SENT = some '>' from rfl]
          have hwb := hqend prev (c :: rest) n hmm
          have hpm2 := hasMatch_append_false_right p ((c :: rest).take n) prev
            ((c :: rest).drop n) (by rw [List.take_append_drop]; exact hpm)
          cases hys : (c :: rest).drop n with
          | nil =>
            rw [subPat.eq_def]
            rfl
          | cons d ys' =>
            have hdnw : isWordChar d = false := by
              rw [hys] at hwb
              have hv : (!isWordChar d) = true := hwb
              simpa using hv
            have hdnal : isAlnum d = false := by
              cases hda : isAlnum d with
              | false => rfl
              | true => exact absurd (alnum_word d hda) (by simp [hdnw])
            have hdne : d ≠ aP := by
              intro he
              rw [he, haP] at hdnw
              exact absurd hdnw (by simp)
            have hqnone : q (((c :: rest).take n).getLast?) (d :: ys') = none := by
              cases hqq : q (((c :: rest).take n).getLast?) (d :: ys') with
              | none => rfl
              | some k => exact absurd (hqheadAl _ _ _ _ hqq) (by simp [hdnal])
            rw [subPat.eq_def]
            dsimp only
            rw [hqnone]
            dsimp only
            simp only [hasMatch]
            rw [hpHeadNone (some '>') d _ hdne]
            have hpm3 : hasMatch p (some d) ys' = false := by
              rw [hys] at hpm2
              simp only [hasMatch, Bool.or_eq_false_iff] at hpm2
              exact hpm2.2
            have hlt : ys'.length ≤ N := by
              have h1 := hqlen prev (c :: rest) n hmm
              have h2 := hq prev (c :: rest) n hmm
              have h3 := congrArg List.length hys
              simp [List.length_drop] at h3
              have h4 := hxs
              simp at h1 h4
              omega
            rw [ih ys' hlt (some d) hpm3]
            rfl
  intro xs prev hpm
  exact main xs.length xs (le_refl _) prev hpm

theorem p1_no_self : ∀ (xs : List Char) (prev : Option Char),
    hasMatch matchP1 prev (subPat matchP1 matchP1_pos prev xs) = false :=
  hasMatch_subPat_self matchP1 matchP1_pos 'g' (by decide)
    (fun prev c rest hc => matchKey_none_of_head _ 'g' _ rfl prev c rest hc)
    (fun prev c rest n h => by
      rw [matchKey_some_head 'g' ['s', 'k', '_'] prev c rest n h]
      decide)
    (fun prev xs n h => (matchKey_some_spec _ prev xs n h).2.1)
    (fun prev xs n h => (matchKey_some_spec _ prev xs n h).2.2)
    (fun prev xs n h => (matchKey_some_spec _ prev xs n h).1)
    (fun prev u b t t' hb h1 hbd =>
      matchKey_RT ['g', 's', 'k', '_'] (by decide) prev u b t t' hb h1 hbd)
    (by decide)

theorem p2_no_self : ∀ (xs : List Char) (prev : Option Char),
    hasMatch matchP2 prev (subPat matchP2 matchP2_pos prev xs) = false :=
  hasMatch_subPat_self matchP2 matchP2_pos 's' (by decide)
    (fun prev c rest hc => matchKey_none_of_head _ 's' _ rfl prev c rest hc)
    (fun prev c rest n h => by
      rw [matchKey_some_head 's' ['k', '-'] prev c rest n h]
      decide)
    (fun prev xs n h => (matchKey_some_spec _ prev xs n h).2.1)
    (fun prev xs n h => (matchKey_some_spec _ prev xs n h).2.2)
    (fun prev xs n h => (matchKey_some_spec _ prev xs n h).1)
    (fun prev u b t t' hb h1 hbd =>
      matchKey_RT ['s', 'k', '-'] (by decide) prev u b t t' hb h1 hbd)
    (by decide)

theorem p3_no_self : ∀ (xs : List Char) (prev : Option Char),
    hasMatch matchP3 prev (subPat matchP3 matchP3_pos prev xs) = false :=
  hasMatch_subPat_self matchP3 matchP3_pos 'e' (by decide)
    (fun prev c rest hc => matchP3_none_of_head prev c rest hc)
    (fun prev c rest n h => by
      rw [matchP3_some_head prev c rest n h]
      decide)
    (fun prev xs n h => (matchP3_some_spec prev xs n h).2.1)
    (fun prev xs n h => (matchP3_some_spec prev xs n h).2.2)
    (fun prev xs n h => (matchP3_some_spec prev xs n h).1)
    (fun prev u b t t' hb h1 _ => matchP3_RT prev u b t t' hb h1)
    (by decide)

theorem p1_kept_by_p2 : ∀ (xs : List Char) (prev : Option Char),
    hasMatch matchP1 prev xs = false →
    hasMatch matchP1 prev (subPat matchP2 matchP2_pos prev xs) = false :=
  hasMatch_subPat_other matchP1 matchP2 matchP2_pos 'g' (by decide)
    (fun prev c rest hc => matchKey_none_of_head _ 'g' _ rfl prev c rest hc)
    (fun prev c rest n h => by
      rw [matchKey_some_head 's' ['k', '-'] prev c rest n h]
      decide)
    (fun prev xs n h => (matchKey_some_spec _ prev xs n h).2.1)
    (fun prev xs n h => (matchKey_some_spec _ prev xs n h).2.2)
    (fun prev xs n h => (matchKey_some_spec _ prev xs n h).1)
    (fun prev u b t t' hb h1 hbd =>
      matchKey_RT ['g', 's', 'k', '_'] (by decide) prev u b t t' hb h1 hbd)
    (by decide)

theorem p1_kept_by_p3 : ∀ (xs : List Char) (prev : Option Char),
    hasMatch matchP1 prev xs = false →
    hasMatch matchP1 prev (subPat matchP3 matchP3_pos prev xs) = false :=
  hasMatch_subPat_other matchP1 matchP3 matchP3_pos 'g' (by decide)
    (fun prev c rest hc => matchKey_none_of_head _ 'g' _ rfl prev c rest hc)
    (fun prev c rest n h => by
      rw [matchP3_some_head prev c rest n h]
      decide)
    (fun prev xs n h => (matchP3_some_spec prev xs n h).2.1)
    (fun prev xs n h => (matchP3_some_spec prev xs n h).2.2)
    (fun prev xs n h => (matchP3_some_spec prev xs n h).1)
    (fun prev u b t t' hb h1 hbd =>
      matchKey_RT ['g', 's', 'k', '_'] (by decide) prev u b t t' hb h1 hbd)
    (by decide)

theorem p2_kept_by_p3 : ∀ (xs : List Char) (prev : Option Char),
    hasMatch matchP2 prev xs = false →
    hasMatch matchP2 prev (subPat matchP3 matchP3_pos prev xs) = false :=
  hasMatch_subPat_other matchP2 matchP3 matchP3_pos 's' (by decide)
    (fun prev c rest hc => matchKey_none_of_head _ 's' _ rfl prev c rest hc)
    (fun prev c rest n h => by
      rw [matchP3_some_head prev c rest n h]
      decide)
    (fun prev xs n h => (matchP3_some_spec prev xs n h).2.1)
    (fun prev xs n h => (matchP3_some_spec prev xs n h).2.2)
    (fun prev xs n h => (matchP3_some_spec prev xs n h).1)
    (fun prev u b t t' hb h1 hbd =>
      matchKey_RT ['s', 'k', '-'] (by decide) prev u b t t' hb h1 hbd)
    (by decide)

/-- The full three-pass redaction is idempotent on character lists. -/
theorem redactList_idem (xs : List Char) :
    redactList (redactList xs) = redactList xs := by
  unfold redactList sub1 sub2 sub3
  have hp1y1 := p1_no_self xs none
  have hp1y2 := p1_kept_by_p2 _ none hp1y1
  have hp1y3 := p1_kept_by_p3 _ none hp1y2
  have hp2y2 := p2_no_self (subPat matchP1 matchP1_pos none xs) none
  have hp2y3 := p2_kept_by_p3 _ none hp2y2
  have hp3y3 := p3_no_self
    (subPat matchP2 matchP2_pos none (subPat matchP1 matchP1_pos none xs)) none
  rw [subPat_eq_self matchP1 matchP1_pos _ none hp1y3]
  rw [subPat_eq_self matchP2 matchP2_pos _ none hp2y3]
  rw [subPat_eq_self matchP3 matchP3_pos _ none hp3y3]

/-- C10.  Secret redaction is idempotent: for every input text,
`redact_secrets (redact_secrets text) = redact_secrets text` — the
sentinel `<REDACTED_SECRET>` contains no substring matching any of the
three secret patterns and cannot combine with surrounding text to form a
new match. -/
theorem claim_C10_redaction_idempotent (text : String) :
    redact_secrets (redact_secrets text) = redact_secrets text := by
  unfold redact_secrets
  exact congrArg String.mk (redactList_idem text.data)

/-- Two texts differ only inside regions matched by the pattern: the
leftmost non-overlapping scan of `m` reads the same character at every
position it does not match (keeping the two `\b` contexts in step), while
each pair of corresponding matched regions may hold arbitrary, different
content. This mirrors exactly the recursion of `subPat`, i.e. Python
`re.sub` scan semantics. -/
inductive ScanAgree (m : Matcher) :
    Option Char → Option Char → List Char → List Char → Prop
  | nil (p1 p2 : Option Char) : ScanAgree m p1 p2 [] []
  | step (p1 p2 : Option Char) (c : Char) (t1 t2 : List Char)
      (h1 : m p1 (c :: t1) = none) (h2 : m p2 (c :: t2) = none)
      (h : ScanAgree m (some c) (some c) t1 t2) :
      ScanAgree m p1 p2 (c :: t1) (c :: t2)
  | rep (p1 p2 : Option Char) (c1 c2 : Char) (t1 t2 : List Char) (n1 n2 : Nat)
      (h1 : m p1 (c1 :: t1) = some n1) (h2 : m p2 (c2 :: t2) = some n2)
      (h : ScanAgree m ((c1 :: t1).take n1).getLast? ((c2 :: t2).take n2).getLast?
        ((c1 :: t1).drop n1) ((c2 :: t2).drop n2)) :
      ScanAgree m p1 p2 (c1 :: t1) (c2 :: t2)

/-- A substitution pass sends two texts that differ only inside matched
regions to the same output: every matched region becomes the sentinel and
everything else is shared. -/
theorem subPat_congr (m : Matcher) (hm : MatcherPos m)
    (p1 p2 : Option Char) (t1 t2 : List Char) (h : ScanAgree m p1 p2 t1 t2) :
    subPat m hm p1 t1 = subPat m hm p2 t2 := by
  induction h with
  | nil p1 p2 =>
    have e1 : subPat m hm p1 [] = [] := by rw [subPat.eq_def]
    have e2 : subPat m hm p2 [] = [] := by rw [subPat.eq_def]
    rw [e1, e2]
  | step p1 p2 c u1 u2 h1 h2 hrec ih =>
    have e1 : subPat m hm p1 (c :: u1) = c :: subPat m hm (some c) u1 := by
      rw [subPat.eq_def]
      dsimp only
      rw [h1]
    have e2 : subPat m hm p2 (c :: u2) = c :: subPat m hm (some c) u2 := by
      rw [subPat.eq_def]
      dsimp only
      rw [h2]
    rw [e1, e2, ih]
  | rep p1 p2 c1 c2 u1 u2 n1 n2 h1 h2 hrec ih =>
    have e1 : subPat m hm p1 (c1 :: u1) = SENT ++
        subPat m hm ((c1 :: u1).take n1).getLast? ((c1 :: u1).drop n1) := by
      rw [subPat.eq_def]
      dsimp only
      rw [h1]
    have e2 : subPat m hm p2 (c2 :: u2) = SENT ++
        subPat m hm ((c2 :: u2).take n2).getLast? ((c2 :: u2).drop n2) := by
      rw [subPat.eq_def]
      dsimp only
      rw [h2]
    rw [e1, e2, ih]

/-- Every output of the full redaction contains no match of any of the
three secret patterns, for every input text. -/
theorem redactList_clean (xs : List Char) (j : Fin 3) :
    hasMatch (patOf j) none (redactList xs) = false := by
  unfold redactList sub1 sub2 sub3
  fin_cases j
  · exact p1_kept_by_p3 _ none (p1_kept_by_p2 _ none (p1_no_self xs none))
  · exact p2_kept_by_p3 _ none (p2_no_self _ none)
  · exact p3_no_self _ none

/-- C3.  Redaction precedes hashing: any two texts that differ only
inside regions matched by the secret patterns redact to the same text,
so their fingerprints (hex SHA-256 of the redacted UTF-8 form) are
identical; and every redacted output contains no match of any secret
pattern.  The differing regions may sit behind arbitrary shared context;
regions of the three patterns are compared at the pass that replaces
them (matches of later patterns are scanned on the output of the earlier
passes, exactly as the code applies its three `re.sub` calls in order,
and a difference confined to a pattern-1 region is already erased by the
first pass). -/
theorem claim_C3_redaction_before_hashing (t1 t2 : String)
    (hdiff : ScanAgree matchP1 none none t1.data t2.data ∨
      ScanAgree matchP2 none none (sub1 t1.data) (sub1 t2.data) ∨
      ScanAgree matchP3 none none (sub2 (sub1 t1.data)) (sub2 (sub1 t2.data))) :
    redact_secrets t1 = redact_secrets t2 ∧
    sha256_text (redact_secrets t1) = sha256_text (redact_secrets t2) ∧
    (∀ j : Fin 3, hasMatch (patOf j) none (redact_secrets t1).data = false) ∧
    (∀ j : Fin 3, hasMatch (patOf j) none (redact_secrets t2).data = false) := by
  have heq : redactList t1.data = redactList t2.data := by
    rcases hdiff with h | h | h
    · have hs : sub1 t1.data = sub1 t2.data :=
        subPat_congr matchP1 matchP1_pos none none _ _ h
      unfold redactList
      rw [hs]
    · have hs : sub2 (sub1 t1.data) = sub2 (sub1 t2.data) :=
        subPat_congr matchP2 matchP2_pos none none _ _ h
      unfold redactList
      rw [hs]
    · exact subPat_congr matchP3 matchP3_pos none none _ _ h
  have hredeq : redact_secrets t1 = redact_secrets t2 := congrArg String.mk heq
  refine ⟨hredeq, congrArg sha256_text hredeq, ?_, ?_⟩
  · intro j
    exact redactList_clean t1.data j
  · intro j
    exact redactList_clean t2.data j

theorem claim_C3_redaction_before_hashing_witness :
    redact_secrets ⟨'K' :: ':' :: ' ' :: ('g' :: 's' :: 'k' :: '_' :: List.replicate 20 'A')⟩ =
      redact_secrets ⟨'K' :: ':' :: ' ' :: ('g' :: 's' :: 'k' :: '_' :: List.replicate 20 'B')⟩ ∧
    sha256_text (redact_secrets ⟨'K' :: ':' :: ' ' :: ('g' :: 's' :: 'k' :: '_' :: List.replicate 20 'A')⟩) =
      sha256_text (redact_secrets ⟨'K' :: ':' :: ' ' :: ('g' :: 's' :: 'k' :: '_' :: List.replicate 20 'B')⟩) :=
  have hsa : ScanAgree matchP1 none none
      ('K' :: ':' :: ' ' :: ('g' :: 's' :: 'k' :: '_' :: List.replicate 20 'A'))
      ('K' :: ':' :: ' ' :: ('g' :: 's' :: 'k' :: '_' :: List.replicate 20 'B')) :=
    .step none none 'K' _ _ (by decide) (by decide)
      (.step _ _ ':' _ _ (by decide) (by decide)
        (.step _ _ ' ' _ _ (by decide) (by decide)
          (.rep _ _ 'g' 'g' _ _ 24 24 (by decide) (by decide) (.nil _ _))))
  have h := claim_C3_redaction_before_hashing
    ⟨'K' :: ':' :: ' ' :: ('g' :: 's' :: 'k' :: '_' :: List.replicate 20 'A')⟩
    ⟨'K' :: ':' :: ' ' :: ('g' :: 's' :: 'k' :: '_' :: List.replicate 20 'B')⟩
    (Or.inl hsa)
  ⟨h.1, h.2.1⟩

end FPH
